import Mathlib

/-!
Verification of the eventstream-parser core against its specification.

The development shallowly embeds the two source modules:

* `src/utf8_stream.rs` — a chunk-boundary-safe UTF-8 decoder (`Utf8Stream`):
  bytes are modelled as `List Nat`, Rust's `String::from_utf8` /
  `Utf8Error::valid_up_to` as `utf8ValidUpTo` (a transcription of
  `core::str::run_utf8_validation`), and `poll_next` as `pollNext` over an
  explicit `DecState`.

* `src/parser.rs` — nom streaming combinators over `&str`, modelled over
  `List Char` with a three-valued result `PRes` (ok / incomplete / err)
  matching nom's `IResult` with `Err::Incomplete` and `Err::Error`.
-/

namespace Esp

/-! ### UTF-8 validation, after core::str::validations (Rust std) -/

/-- A UTF-8 continuation byte, `0x80..=0xBF`. -/
def contB (b : Nat) : Bool := 0x80 ≤ b && b ≤ 0xBF

/-- Permitted second byte of a three-byte sequence, by lead byte
(`0xE0` needs `0xA0..=0xBF`, `0xED` needs `0x80..=0x9F`). -/
def cont3ok (b0 b1 : Nat) : Bool :=
  if b0 = 0xE0 then 0xA0 ≤ b1 && b1 ≤ 0xBF
  else if b0 = 0xED then 0x80 ≤ b1 && b1 ≤ 0x9F
  else contB b1

/-- Permitted second byte of a four-byte sequence, by lead byte
(`0xF0` needs `0x90..=0xBF`, `0xF4` needs `0x80..=0x8F`). -/
def cont4ok (b0 b1 : Nat) : Bool :=
  if b0 = 0xF0 then 0x90 ≤ b1 && b1 ≤ 0xBF
  else if b0 = 0xF4 then 0x80 ≤ b1 && b1 ≤ 0x8F
  else contB b1

/-- Length of the single valid UTF-8 sequence at the head of the list,
or `none` if the head does not begin a complete valid sequence. -/
def utf8SeqLen : List Nat → Option Nat
  | [] => none
  | b0 :: rest =>
    if b0 ≤ 0x7F then some 1
    else if b0 < 0xC2 then none
    else if b0 ≤ 0xDF then
      match rest with
      | b1 :: _ => if contB b1 then some 2 else none
      | [] => none
    else if b0 ≤ 0xEF then
      match rest with
      | b1 :: b2 :: _ => if cont3ok b0 b1 && contB b2 then some 3 else none
      | _ => none
    else if b0 ≤ 0xF4 then
      match rest with
      | b1 :: b2 :: b3 :: _ =>
        if cont4ok b0 b1 && contB b2 && contB b3 then some 4 else none
      | _ => none
    else none

/-- The loop of `core::str::run_utf8_validation`: sum the lengths of the
leading valid sequences, stopping at the first position that does not
begin one.  Written with fuel for structural recursion; each step
consumes at least one byte, so `fuel = l.length` (as instantiated in
`utf8ValidUpTo`) always suffices. -/
def utf8ValidUpToF : Nat → List Nat → Nat
  | 0, _ => 0
  | k + 1, l =>
    match utf8SeqLen l with
    | none => 0
    | some n => n + utf8ValidUpToF k (l.drop n)

/-- Rust's `Utf8Error::valid_up_to`: the number of leading bytes forming
the longest valid-UTF-8 prefix. -/
def utf8ValidUpTo (l : List Nat) : Nat := utf8ValidUpToF l.length l

/-- `String::from_utf8` succeeds on exactly these byte lists. -/
def Utf8Valid (l : List Nat) : Prop := utf8ValidUpTo l = l.length

instance (l : List Nat) : Decidable (Utf8Valid l) :=
  inferInstanceAs (Decidable (_ = _))

/-! ### The decoder: `Utf8Stream::poll_next` (src/utf8_stream.rs) -/

/-- The fields of `Utf8Stream` that `poll_next` reads and writes:
the residue `buffer` and the `terminated` flag. -/
structure DecState where
  buffer : List Nat
  terminated : Bool
deriving DecidableEq

/-- One result of polling the upstream byte source
(`Poll<Option<Result<B, E>>>`). -/
inductive UpPoll (ε : Type)
  | readyOk (bytes : List Nat)
  | readyErr (e : ε)
  | readyNone
  | pending
deriving DecidableEq

/-- One result of polling the decoder
(`Poll<Option<Result<String, Utf8StreamError<E>>>>`); a produced `String`
is represented by its bytes, and a `Utf8Error` by its `valid_up_to`. -/
inductive DownPoll (ε : Type)
  | itemOk (text : List Nat)
  | itemUtf8Err (validUpTo : Nat)
  | itemTransportErr (e : ε)
  | readyNone
  | pending
deriving DecidableEq

/-- `Utf8Stream::poll_next`, given the state and the upstream poll result:
if terminated, return `Ready(None)` without touching upstream; on a byte
chunk, append to the buffer, split at `valid_up_to`, emit the valid prefix
and keep the rest; on an upstream error, forward it as `Transport` without
terminating; on upstream end, set `terminated` and flush the buffer, as
`Ok` if it is valid UTF-8 and as a `Utf8Error` otherwise. -/
def pollNext {ε : Type} (st : DecState) (up : UpPoll ε) : DecState × DownPoll ε :=
  if st.terminated then (st, .readyNone)
  else
    match up with
    | .readyOk bytes =>
      let all := st.buffer ++ bytes
      let v := utf8ValidUpTo all
      (⟨all.drop v, false⟩, .itemOk (all.take v))
    | .readyErr e => (st, .itemTransportErr e)
    | .readyNone =>
      if st.buffer.isEmpty then (⟨[], true⟩, .readyNone)
      else if utf8ValidUpTo st.buffer = st.buffer.length then
        (⟨[], true⟩, .itemOk st.buffer)
      else (⟨[], true⟩, .itemUtf8Err (utf8ValidUpTo st.buffer))
    | .pending => (st, .pending)

/-- Repeatedly poll the decoder against a sequence of upstream poll
results, collecting the decoder's outputs. -/
def runFrom {ε : Type} (st : DecState) : List (UpPoll ε) → List (DownPoll ε)
  | [] => []
  | u :: us =>
    let r := pollNext st u
    r.2 :: runFrom r.1 us

/-- The text chunks among the decoder outputs, in order. -/
def okTexts {ε : Type} : List (DownPoll ε) → List (List Nat)
  | [] => []
  | .itemOk t :: rest => t :: okTexts rest
  | _ :: rest => okTexts rest

/-- No `Utf8Error` and no `Transport` error among the outputs. -/
def errFree {ε : Type} (outs : List (DownPoll ε)) : Bool :=
  outs.all fun o =>
    match o with
    | .itemUtf8Err _ => false
    | .itemTransportErr _ => false
    | _ => true

/-! ### The grammar parser (src/parser.rs), over nom streaming combinators -/

/-- Parser input, the `&str` argument, as a list of scalar values. -/
abbrev Input := List Char

/-- Result of a nom streaming parser: `Ok((rest, value))`,
`Err(Err::Incomplete(_))`, or `Err(Err::Error(_))`. -/
inductive PRes (α : Type)
  | ok (rest : Input) (val : α)
  | incomplete
  | err
deriving DecidableEq

/-- Sequencing as in nom's `preceded`, `terminated` and `tuple`:
run the continuation on success, propagate `Incomplete` and `Error`. -/
def pbind {α β : Type} (r : PRes α) (f : Input → α → PRes β) : PRes β :=
  match r with
  | .ok rest v => f rest v
  | .incomplete => .incomplete
  | .err => .err

/-- nom `bytes::streaming::tag`: `Incomplete` when the input is a proper
prefix of the tag, `Error` on mismatch. -/
def tagP (t : Input) (i : Input) : PRes Input :=
  if t.isPrefixOf i then .ok (i.drop t.length) t
  else if i.isPrefixOf t then .incomplete
  else .err

/-- nom `bytes::streaming::take_while_m_n(1, 1, p)`: `Incomplete` on empty
input, one matching char on success, `Error` otherwise. -/
def take1 (p : Char → Bool) (i : Input) : PRes Input :=
  match i with
  | [] => .incomplete
  | c :: rest => if p c then .ok rest [c] else .err

/-- nom `bytes::streaming::take_while(p)`: `Incomplete` when every
available char matches (more input could extend the run), otherwise the
matching prefix. -/
def takeWhileP (p : Char → Bool) (i : Input) : PRes Input :=
  if (i.dropWhile p).isEmpty then .incomplete
  else .ok (i.dropWhile p) (i.takeWhile p)

/-- nom `bytes::streaming::take_while1(p)`: as `take_while` but `Error`
when the first char already fails the predicate. -/
def takeWhile1P (p : Char → Bool) (i : Input) : PRes Input :=
  if (i.dropWhile p).isEmpty then .incomplete
  else if (i.takeWhile p).isEmpty then .err
  else .ok (i.dropWhile p) (i.takeWhile p)

/-- `is_lf` from the source: U+000A. -/
def is_lf (c : Char) : Bool := c = '\u000A'

/-- `is_cr` from the source: U+000D. -/
def is_cr (c : Char) : Bool := c = '\u000D'

/-- `is_space` from the source: U+0020. -/
def is_space (c : Char) : Bool := c = ' '

/-- `is_colon` from the source: U+003A. -/
def is_colon (c : Char) : Bool := c = ':'

/-- `is_name_char` from the source: any scalar value other than LF, CR
or colon. -/
def is_name_char (c : Char) : Bool :=
  c.toNat ≤ 0x0009 || (0x000B ≤ c.toNat && c.toNat ≤ 0x000C) ||
    (0x000E ≤ c.toNat && c.toNat ≤ 0x0039) || 0x003B ≤ c.toNat

/-- `is_any_char` from the source: any scalar value other than LF or CR. -/
def is_any_char (c : Char) : Bool :=
  c.toNat ≤ 0x0009 || (0x000B ≤ c.toNat && c.toNat ≤ 0x000C) ||
    0x000E ≤ c.toNat

/-- `RawEventLine` from the source. -/
inductive RawEventLine
  | comment (text : Input)
  | field (name : Input) (value : Option Input)
deriving DecidableEq

/-- `crlf`: `tag("\r\n")`. -/
def crlf (i : Input) : PRes Input := tagP ['\u000D', '\u000A'] i

/-- `end_of_line`: `alt((crlf, take_while_m_n(1,1,is_cr),
take_while_m_n(1,1,is_lf)))`; nom's `alt` falls through only on
`Error`, so `Incomplete` from `crlf` (a lone CR at the end of input)
is returned as `Incomplete`. -/
def end_of_line (i : Input) : PRes Input :=
  match crlf i with
  | .ok r v => .ok r v
  | .incomplete => .incomplete
  | .err =>
    match take1 is_cr i with
    | .ok r v => .ok r v
    | .incomplete => .incomplete
    | .err => take1 is_lf i

/-- `comment`: `preceded(take_while_m_n(1,1,is_colon),
terminated(take_while(is_any_char), end_of_line))`. -/
def comment (i : Input) : PRes RawEventLine :=
  pbind (take1 is_colon i) fun i1 _ =>
  pbind (takeWhileP is_any_char i1) fun i2 text =>
  pbind (end_of_line i2) fun i3 _ => .ok i3 (.comment text)

/-- The value part of `field` after the colon (and optional single
space) has been consumed: `take_while(is_any_char)` then `end_of_line`. -/
def fieldValueTail (name : Input) (j : Input) : PRes RawEventLine :=
  pbind (takeWhileP is_any_char j) fun j2 v =>
  pbind (end_of_line j2) fun j3 _ => .ok j3 (.field name (some v))

/-- `field`: `terminated(tuple((take_while1(is_name_char),
opt(preceded(take_while_m_n(1,1,is_colon), preceded(opt(take_while_m_n(1,1,is_space)),
take_while(is_any_char)))))), end_of_line)`; nom's `opt` backtracks on
`Error` and propagates `Incomplete`. -/
def field (i : Input) : PRes RawEventLine :=
  pbind (takeWhile1P is_name_char i) fun i1 name =>
  match take1 is_colon i1 with
  | .err => pbind (end_of_line i1) fun i2 _ => .ok i2 (.field name none)
  | .incomplete => .incomplete
  | .ok i2 _ =>
    match take1 is_space i2 with
    | .incomplete => .incomplete
    | .err => fieldValueTail name i2
    | .ok i3 _ => fieldValueTail name i3

/-- `alt((comment, field))`, the loop body of `event`'s `many_till`. -/
def event_line (i : Input) : PRes RawEventLine :=
  match comment i with
  | .ok r v => .ok r v
  | .incomplete => .incomplete
  | .err => field i

/-- One iteration scheme of `event`'s `many_till(alt((comment, field)),
end_of_line)` loop, parameterized by the continuation used after a
recognized line: first try the terminator, else lex one line and
continue, with nom's infinite-loop guard (error when the loop body
consumed nothing). -/
def eventStep (next : Input → PRes (List RawEventLine)) (i : Input) :
    PRes (List RawEventLine) :=
  match end_of_line i with
  | .ok i1 _ => .ok i1 []
  | .incomplete => .incomplete
  | .err =>
    match event_line i with
    | .incomplete => .incomplete
    | .err => .err
    | .ok i1 l =>
      if i1.length = i.length then .err
      else
        match next i1 with
        | .ok i2 ls => .ok i2 (l :: ls)
        | .incomplete => .incomplete
        | .err => .err

/-- The `many_till` loop with explicit fuel; `event` instantiates the
fuel with the input length, which always suffices because each
recognized line consumes input. -/
def eventF : Nat → Input → PRes (List RawEventLine)
  | 0, i => eventStep (fun _ => .incomplete) i
  | fuel + 1, i => eventStep (eventF fuel) i

/-- `event`, the `many_till` loop run to completion; a `RawEvent` is its
list of `RawEventLine`. -/
def event (i : Input) : PRes (List RawEventLine) := eventF i.length i

/-- One iteration scheme of `events`' `while let Ok((i, e)) = event(input)`
loop, parameterized by the continuation applied to the rest. -/
def eventsStep (next : Input → Input × List (List RawEventLine)) (i : Input) :
    Input × List (List RawEventLine) :=
  match event i with
  | .ok i1 e =>
    let r := next i1
    (r.1, e :: r.2)
  | .incomplete => (i, [])
  | .err => (i, [])

/-- The `events` loop with explicit fuel; each successful `event`
consumes input, so the fuel used by `events` suffices. -/
def eventsF : Nat → Input → Input × List (List RawEventLine)
  | 0, i => (i, [])
  | fuel + 1, i => eventsStep (eventsF fuel) i

/-- `events`: accumulate events while `event` succeeds; always returns
`Ok` with the unconsumed residue and the recognized events. -/
def events (i : Input) : Input × List (List RawEventLine) :=
  eventsF (i.length + 1) i

/-- Incremental feeding: call `events` on each piece with the previous
unconsumed residue prepended, concatenating the recognized events. -/
def feedPieces (residue : Input) : List Input → Input × List (List RawEventLine)
  | [] => (residue, [])
  | p :: ps =>
    let r := events (residue ++ p)
    let rest := feedPieces r.1 ps
    (rest.1, r.2 ++ rest.2)

/-! ### Abstract event texts, for stating the round-trip claims -/

/-- The bytes a single upstream poll result contributes to the stream. -/
def upBytes {ε : Type} : UpPoll ε → List Nat
  | .readyOk b => b
  | _ => []

/-- Which of the grammar's three permitted line terminators a rendered
line uses. -/
inductive EolKind
  | crlf
  | cr
  | lf
deriving DecidableEq

/-- The characters of a terminator. -/
def eolChars : EolKind → Input
  | .crlf => ['\u000D', '\u000A']
  | .cr => ['\u000D']
  | .lf => ['\u000A']

/-- An abstract comment or field line of a well-formed event text:
a comment payload, a field with no colon, or a field with a colon and a
raw (pre-space-stripping) value. -/
inductive SpecLine
  | commentL (payload : Input)
  | fieldNone (name : Input)
  | fieldSome (name : Input) (value : Input)
deriving DecidableEq

/-- The text of an abstract line, without its terminator. -/
def renderSpecLine : SpecLine → Input
  | .commentL p => ':' :: p
  | .fieldNone n => n
  | .fieldSome n v => n ++ ':' :: v

/-- Strip at most one leading space, as `field`'s optional-space does. -/
def dropOneSpace (v : Input) : Input :=
  match v with
  | c :: t => if c = ' ' then t else c :: t
  | [] => []

/-- The `RawEventLine` the grammar assigns to an abstract line. -/
def expectedLine : SpecLine → RawEventLine
  | .commentL p => .comment p
  | .fieldNone n => .field n none
  | .fieldSome n v => .field n (some (dropOneSpace v))

/-- Character-class side conditions making an abstract line well formed:
comment payloads are `any-char`s, field names are nonempty `name-char`
runs, field values are `any-char`s. -/
def wfSpecLineB : SpecLine → Bool
  | .commentL p => p.all is_any_char
  | .fieldNone n => !n.isEmpty && n.all is_name_char
  | .fieldSome n v => !n.isEmpty && n.all is_name_char && v.all is_any_char

/-- The text of a list of terminated lines. -/
def renderLines : List (SpecLine × EolKind) → Input
  | [] => []
  | (l, e) :: rest => renderSpecLine l ++ eolChars e ++ renderLines rest

/-- A whole event text: terminated lines followed by the blank line. -/
def renderEvent (lines : List (SpecLine × EolKind)) (blank : EolKind) : Input :=
  renderLines lines ++ eolChars blank

/-- No lone-CR terminator directly followed by the blank line's LF
(CRLF priority would merge them into one terminator): the last line's
terminator must not be a lone CR when the blank line is a lone LF. -/
def chainOkB (lines : List (SpecLine × EolKind)) (blank : EolKind) : Bool :=
  match blank with
  | EolKind.lf =>
    match lines.getLast? with
    | some (_, EolKind.cr) => false
    | _ => true
  | _ => true

/-- Input following a rendered terminator under which `end_of_line`
consumes exactly that terminator: a lone CR must be followed by an
available char other than LF. -/
def EolOk : EolKind → Input → Prop
  | .cr, j => ∃ c t, j = c :: t ∧ c ≠ '\u000A'
  | _, _ => True

/-! ### Lemmas on UTF-8 validation -/

lemma utf8SeqLen_shape {l : List Nat} {n : Nat} (h : utf8SeqLen l = some n) :
    (∃ b0 r, l = b0 :: r ∧ b0 ≤ 0x7F ∧ n = 1) ∨
    (∃ b0 b1 r, l = b0 :: b1 :: r ∧ 0xC2 ≤ b0 ∧ b0 ≤ 0xDF ∧ contB b1 = true ∧ n = 2) ∨
    (∃ b0 b1 b2 r, l = b0 :: b1 :: b2 :: r ∧ 0xE0 ≤ b0 ∧ b0 ≤ 0xEF ∧
      cont3ok b0 b1 = true ∧ contB b2 = true ∧ n = 3) ∨
    (∃ b0 b1 b2 b3 r, l = b0 :: b1 :: b2 :: b3 :: r ∧ 0xF0 ≤ b0 ∧ b0 ≤ 0xF4 ∧
      cont4ok b0 b1 = true ∧ contB b2 = true ∧ contB b3 = true ∧ n = 4) := by
  match l with
  | [] => simp [utf8SeqLen] at h
  | b0 :: rest =>
    by_cases h1 : b0 ≤ 0x7F
    · simp only [utf8SeqLen, if_pos h1, Option.some.injEq] at h
      exact Or.inl ⟨b0, rest, rfl, h1, h.symm⟩
    · by_cases h2 : b0 < 0xC2
      · simp [utf8SeqLen, h1, h2] at h
      · by_cases h3 : b0 ≤ 0xDF
        · match rest with
          | [] => simp [utf8SeqLen, h1, h2, h3] at h
          | b1 :: r2 =>
            by_cases hc : contB b1
            · simp only [utf8SeqLen, if_neg h1, if_neg h2, if_pos h3, if_pos hc,
                Option.some.injEq] at h
              exact Or.inr (Or.inl ⟨b0, b1, r2, rfl, by omega, h3, hc, h.symm⟩)
            · simp [utf8SeqLen, h1, h2, h3, hc] at h
        · by_cases h4 : b0 ≤ 0xEF
          · match rest with
            | [] => simp [utf8SeqLen, h1, h2, h3, h4] at h
            | [b1] => simp [utf8SeqLen, h1, h2, h3, h4] at h
            | b1 :: b2 :: r3 =>
              by_cases hc : cont3ok b0 b1 && contB b2
              · simp only [utf8SeqLen, if_neg h1, if_neg h2, if_neg h3, if_pos h4,
                  if_pos hc, Option.some.injEq] at h
                refine Or.inr (Or.inr (Or.inl ⟨b0, b1, b2, r3, rfl, by omega, h4, ?_, ?_, h.symm⟩))
                · exact (Bool.and_eq_true _ _ ▸ hc).1
                · exact (Bool.and_eq_true _ _ ▸ hc).2
              · simp [utf8SeqLen, h1, h2, h3, h4, hc] at h
          · by_cases h5 : b0 ≤ 0xF4
            · match rest with
              | [] => simp [utf8SeqLen, h1, h2, h3, h4, h5] at h
              | [b1] => simp [utf8SeqLen, h1, h2, h3, h4, h5] at h
              | [b1, b2] => simp [utf8SeqLen, h1, h2, h3, h4, h5] at h
              | b1 :: b2 :: b3 :: r4 =>
                by_cases hc : cont4ok b0 b1 && contB b2 && contB b3
                · simp only [utf8SeqLen, if_neg h1, if_neg h2, if_neg h3, if_neg h4,
                    if_pos h5, if_pos hc, Option.some.injEq] at h
                  have hc1 := (Bool.and_eq_true _ _ ▸ hc).1
                  refine Or.inr (Or.inr (Or.inr ⟨b0, b1, b2, b3, r4, rfl, by omega, h5,
                    (Bool.and_eq_true _ _ ▸ hc1).1, (Bool.and_eq_true _ _ ▸ hc1).2,
                    (Bool.and_eq_true _ _ ▸ hc).2, h.symm⟩))
                · simp [utf8SeqLen, h1, h2, h3, h4, h5, hc] at h
            · simp [utf8SeqLen, h1, h2, h3, h4, h5] at h

lemma utf8SeqLen_one {b0 : Nat} (r : List Nat) (h : b0 ≤ 0x7F) :
    utf8SeqLen (b0 :: r) = some 1 := by simp [utf8SeqLen, h]

lemma utf8SeqLen_two {b0 b1 : Nat} (r : List Nat) (h2 : 0xC2 ≤ b0) (h3 : b0 ≤ 0xDF)
    (hc : contB b1 = true) : utf8SeqLen (b0 :: b1 :: r) = some 2 := by
  have h1 : ¬ b0 ≤ 0x7F := by omega
  have h2' : ¬ b0 < 0xC2 := by omega
  simp [utf8SeqLen, h1, h2', h3, hc]

lemma utf8SeqLen_three {b0 b1 b2 : Nat} (r : List Nat) (h2 : 0xE0 ≤ b0) (h3 : b0 ≤ 0xEF)
    (hc1 : cont3ok b0 b1 = true) (hc2 : contB b2 = true) :
    utf8SeqLen (b0 :: b1 :: b2 :: r) = some 3 := by
  have h1 : ¬ b0 ≤ 0x7F := by omega
  have h2' : ¬ b0 < 0xC2 := by omega
  have h3' : ¬ b0 ≤ 0xDF := by omega
  simp [utf8SeqLen, h1, h2', h3', h3, hc1, hc2]

lemma utf8SeqLen_four {b0 b1 b2 b3 : Nat} (r : List Nat) (h2 : 0xF0 ≤ b0) (h3 : b0 ≤ 0xF4)
    (hc1 : cont4ok b0 b1 = true) (hc2 : contB b2 = true) (hc3 : contB b3 = true) :
    utf8SeqLen (b0 :: b1 :: b2 :: b3 :: r) = some 4 := by
  have h1 : ¬ b0 ≤ 0x7F := by omega
  have h2' : ¬ b0 < 0xC2 := by omega
  have h3' : ¬ b0 ≤ 0xDF := by omega
  have h4' : ¬ b0 ≤ 0xEF := by omega
  simp [utf8SeqLen, h1, h2', h3', h4', h3, hc1, hc2, hc3]

lemma utf8SeqLen_pos {l : List Nat} {n : Nat} (h : utf8SeqLen l = some n) : 1 ≤ n := by
  rcases utf8SeqLen_shape h with ⟨_, _, _, _, hn⟩ | ⟨_, _, _, _, _, _, _, hn⟩ |
    ⟨_, _, _, _, _, _, _, _, _, hn⟩ | ⟨_, _, _, _, _, _, _, _, _, _, _, hn⟩ <;> omega

lemma utf8SeqLen_le_four {l : List Nat} {n : Nat} (h : utf8SeqLen l = some n) : n ≤ 4 := by
  rcases utf8SeqLen_shape h with ⟨_, _, _, _, hn⟩ | ⟨_, _, _, _, _, _, _, hn⟩ |
    ⟨_, _, _, _, _, _, _, _, _, hn⟩ | ⟨_, _, _, _, _, _, _, _, _, _, _, hn⟩ <;> omega

lemma utf8SeqLen_le_length {l : List Nat} {n : Nat} (h : utf8SeqLen l = some n) :
    n ≤ l.length := by
  rcases utf8SeqLen_shape h with ⟨_, _, hl, _, hn⟩ | ⟨_, _, _, hl, _, _, _, hn⟩ |
    ⟨_, _, _, _, hl, _, _, _, _, hn⟩ | ⟨_, _, _, _, _, hl, _, _, _, _, _, hn⟩ <;>
    subst hl <;> simp <;> omega

lemma utf8SeqLen_take_append {l : List Nat} {n : Nat} (h : utf8SeqLen l = some n)
    (m : List Nat) : utf8SeqLen (l.take n ++ m) = some n := by
  rcases utf8SeqLen_shape h with ⟨b0, r, hl, hb, hn⟩ | ⟨b0, b1, r, hl, hb, hb', hc, hn⟩ |
    ⟨b0, b1, b2, r, hl, hb, hb', hc1, hc2, hn⟩ |
    ⟨b0, b1, b2, b3, r, hl, hb, hb', hc1, hc2, hc3, hn⟩ <;> subst hl <;> subst hn
  · simpa using utf8SeqLen_one m hb
  · simpa using utf8SeqLen_two m hb hb' hc
  · simpa using utf8SeqLen_three m hb hb' hc1 hc2
  · simpa using utf8SeqLen_four m hb hb' hc1 hc2 hc3

lemma utf8SeqLen_of_append {l m : List Nat} {n : Nat} (h : utf8SeqLen (l ++ m) = some n)
    (hn : n ≤ l.length) : utf8SeqLen l = some n := by
  have h2 := utf8SeqLen_take_append h (l.drop n)
  rwa [List.take_append_of_le_length hn, List.take_append_drop] at h2

lemma utf8ValidUpToF_congr : ∀ (f g : Nat) (l : List Nat), l.length ≤ f → l.length ≤ g →
    utf8ValidUpToF f l = utf8ValidUpToF g l := by
  intro f
  induction f with
  | zero =>
    intro g l hf _
    have hl : l = [] := List.length_eq_zero.mp (Nat.le_zero.mp hf)
    subst hl
    cases g <;> simp [utf8ValidUpToF, utf8SeqLen]
  | succ f IH =>
    intro g l hf hg
    cases hseq : utf8SeqLen l with
    | none =>
      cases g with
      | zero =>
        have hl : l = [] := List.length_eq_zero.mp (Nat.le_zero.mp hg)
        subst hl; simp [utf8ValidUpToF, utf8SeqLen]
      | succ g => simp [utf8ValidUpToF, hseq]
    | some n =>
      have hpos := utf8SeqLen_pos hseq
      have hle := utf8SeqLen_le_length hseq
      cases g with
      | zero =>
        exfalso
        have hl : l = [] := List.length_eq_zero.mp (Nat.le_zero.mp hg)
        subst hl
        simp [utf8SeqLen] at hseq
      | succ g =>
        simp only [utf8ValidUpToF, hseq]
        congr 1
        exact IH g (l.drop n) (by simp; omega) (by simp; omega)

lemma utf8ValidUpToF_zero (l : List Nat) : utf8ValidUpToF 0 l = 0 := rfl

lemma utf8ValidUpTo_nil : utf8ValidUpTo [] = 0 := rfl

lemma utf8ValidUpTo_of_seq_none {l : List Nat} (h : utf8SeqLen l = none) :
    utf8ValidUpTo l = 0 := by
  unfold utf8ValidUpTo
  cases hk : l.length with
  | zero => exact utf8ValidUpToF_zero l
  | succ k => simp [utf8ValidUpToF, h]

lemma utf8ValidUpTo_of_seq {l : List Nat} {n : Nat} (h : utf8SeqLen l = some n) :
    utf8ValidUpTo l = n + utf8ValidUpTo (l.drop n) := by
  have hpos := utf8SeqLen_pos h
  have hle := utf8SeqLen_le_length h
  obtain ⟨k, hk⟩ : ∃ k, l.length = k + 1 := ⟨l.length - 1, by omega⟩
  unfold utf8ValidUpTo
  rw [hk]
  simp only [utf8ValidUpToF, h]
  congr 1
  exact utf8ValidUpToF_congr k (l.drop n).length (l.drop n) (by simp; omega) le_rfl

lemma utf8ValidUpTo_le_length (l : List Nat) : utf8ValidUpTo l ≤ l.length := by
  have key : ∀ (k : Nat) (l : List Nat), l.length ≤ k → utf8ValidUpTo l ≤ l.length := by
    intro k
    induction k with
    | zero =>
      intro l hl
      have : l = [] := List.length_eq_zero.mp (Nat.le_zero.mp hl)
      subst this; simp [utf8ValidUpTo_nil]
    | succ k IH =>
      intro l hl
      cases hseq : utf8SeqLen l with
      | none => simp [utf8ValidUpTo_of_seq_none hseq]
      | some n =>
        have hpos := utf8SeqLen_pos hseq
        have hle := utf8SeqLen_le_length hseq
        have hdrop := IH (l.drop n) (by simp; omega)
        rw [utf8ValidUpTo_of_seq hseq]
        simp at hdrop
        omega
  exact key l.length l le_rfl

lemma utf8ValidUpTo_append_of_valid {a : List Nat} (ha : Utf8Valid a) (b : List Nat) :
    utf8ValidUpTo (a ++ b) = a.length + utf8ValidUpTo b := by
  have key : ∀ (k : Nat) (a b : List Nat), a.length ≤ k → Utf8Valid a →
      utf8ValidUpTo (a ++ b) = a.length + utf8ValidUpTo b := by
    intro k
    induction k with
    | zero =>
      intro a b hl _
      have : a = [] := List.length_eq_zero.mp (Nat.le_zero.mp hl)
      subst this; simp
    | succ k IH =>
      intro a b hl ha
      match a with
      | [] => simp
      | b0 :: rest =>
        cases hseq : utf8SeqLen (b0 :: rest) with
        | none =>
          exfalso
          have := utf8ValidUpTo_of_seq_none hseq
          unfold Utf8Valid at ha
          simp [this] at ha
        | some n =>
          set a := b0 :: rest with ha_def
          have hpos := utf8SeqLen_pos hseq
          have hle := utf8SeqLen_le_length hseq
          have hvu := utf8ValidUpTo_of_seq hseq
          have hdropvalid : Utf8Valid (a.drop n) := by
            unfold Utf8Valid at ha ⊢
            simp only [List.length_drop]
            omega
          have hseqab : utf8SeqLen (a ++ b) = some n := by
            have := utf8SeqLen_take_append hseq (a.drop n ++ b)
            rwa [← List.append_assoc, List.take_append_drop] at this
          rw [utf8ValidUpTo_of_seq hseqab,
            List.drop_append_of_le_length hle,
            IH (a.drop n) b (by simp [ha_def] at hl ⊢; omega) hdropvalid]
          simp only [List.length_drop]
          omega
  exact key a.length a b le_rfl ha

lemma utf8Valid_append {a b : List Nat} (ha : Utf8Valid a) (hb : Utf8Valid b) :
    Utf8Valid (a ++ b) := by
  unfold Utf8Valid at hb ⊢
  rw [utf8ValidUpTo_append_of_valid ha, hb]
  simp

lemma utf8Valid_right_of_append {a b : List Nat} (ha : Utf8Valid a)
    (hab : Utf8Valid (a ++ b)) : Utf8Valid b := by
  unfold Utf8Valid at hab ⊢
  rw [utf8ValidUpTo_append_of_valid ha] at hab
  simp at hab
  omega

lemma utf8Valid_take (l : List Nat) : Utf8Valid (l.take (utf8ValidUpTo l)) := by
  have key : ∀ (k : Nat) (l : List Nat), l.length ≤ k →
      Utf8Valid (l.take (utf8ValidUpTo l)) := by
    intro k
    induction k with
    | zero =>
      intro l hl
      have : l = [] := List.length_eq_zero.mp (Nat.le_zero.mp hl)
      subst this; simp [Utf8Valid, utf8ValidUpTo_nil]
    | succ k IH =>
      intro l hl
      cases hseq : utf8SeqLen l with
      | none => simp [utf8ValidUpTo_of_seq_none hseq, Utf8Valid, utf8ValidUpTo_nil]
      | some n =>
        have hpos := utf8SeqLen_pos hseq
        have hle := utf8SeqLen_le_length hseq
        rw [utf8ValidUpTo_of_seq hseq, List.take_add]
        have hvalid_head : Utf8Valid (l.take n) := by
          have hseq' : utf8SeqLen (l.take n) = some n := by
            have := utf8SeqLen_take_append hseq []
            simpa using this
          unfold Utf8Valid
          rw [utf8ValidUpTo_of_seq hseq']
          have hlen : (l.take n).length = n := by simp; omega
          rw [hlen]
          have hnil : (l.take n).drop n = [] := by
            rw [List.drop_eq_nil_iff]
            simp
          simp [hnil, utf8ValidUpTo_nil]
        exact utf8Valid_append hvalid_head (IH (l.drop n) (by simp; omega))
  exact key l.length l le_rfl

lemma utf8ValidUpTo_drop (l : List Nat) :
    utf8ValidUpTo (l.drop (utf8ValidUpTo l)) = 0 := by
  have key : ∀ (k : Nat) (l : List Nat), l.length ≤ k →
      utf8ValidUpTo (l.drop (utf8ValidUpTo l)) = 0 := by
    intro k
    induction k with
    | zero =>
      intro l hl
      have : l = [] := List.length_eq_zero.mp (Nat.le_zero.mp hl)
      subst this; rfl
    | succ k IH =>
      intro l hl
      cases hseq : utf8SeqLen l with
      | none =>
        rw [utf8ValidUpTo_of_seq_none hseq]
        simpa using utf8ValidUpTo_of_seq_none hseq
      | some n =>
        have hpos := utf8SeqLen_pos hseq
        have hle := utf8SeqLen_le_length hseq
        rw [utf8ValidUpTo_of_seq hseq, ← List.drop_drop]
        exact IH (l.drop n) (by simp; omega)
  exact key l.length l le_rfl

lemma utf8ValidUpTo_maximal {l : List Nat} {j : Nat} (hvalid : Utf8Valid (l.take j))
    (hj : j ≤ l.length) : j ≤ utf8ValidUpTo l := by
  have key : ∀ (k : Nat) (l : List Nat) (j : Nat), l.length ≤ k → Utf8Valid (l.take j) →
      j ≤ l.length → j ≤ utf8ValidUpTo l := by
    intro k
    induction k with
    | zero =>
      intro l j hl _ hj
      have hj0 : j = 0 := by omega
      subst hj0
      exact Nat.zero_le _
    | succ k IH =>
      intro l j hl hvalid hj
      match j with
      | 0 => exact Nat.zero_le _
      | j + 1 =>
        have hne : l.take (j + 1) ≠ [] := by
          intro hc
          have h0 : (l.take (j + 1)).length = 0 := by rw [hc]; rfl
          rw [List.length_take] at h0
          omega
        have hlen_take : (l.take (j + 1)).length = j + 1 := by simp; omega
        cases hseq : utf8SeqLen (l.take (j + 1)) with
        | none =>
          exfalso
          unfold Utf8Valid at hvalid
          rw [utf8ValidUpTo_of_seq_none hseq, hlen_take] at hvalid
          omega
        | some n =>
          have hpos := utf8SeqLen_pos hseq
          have hle : n ≤ j + 1 := hlen_take ▸ utf8SeqLen_le_length hseq
          have hseql : utf8SeqLen l = some n := by
            have h2 := utf8SeqLen_take_append hseq (l.drop n)
            rwa [List.take_take, Nat.min_eq_left hle, List.take_append_drop] at h2
          have hvu_take : utf8ValidUpTo (l.take (j + 1)) = j + 1 := by
            unfold Utf8Valid at hvalid
            omega
          have hvu_seq := utf8ValidUpTo_of_seq hseq
          have hdt : (l.take (j + 1)).drop n = (l.drop n).take (j + 1 - n) := by
            rw [List.drop_take]
          have hvalid_rest : Utf8Valid ((l.drop n).take (j + 1 - n)) := by
            unfold Utf8Valid
            rw [← hdt]
            have : utf8ValidUpTo ((l.take (j + 1)).drop n) = j + 1 - n := by omega
            rw [this]
            rw [hdt]
            simp
            omega
          have := IH (l.drop n) (j + 1 - n) (by simp; omega) hvalid_rest
            (by simp; omega)
          rw [utf8ValidUpTo_of_seq hseql]
          omega
  exact key l.length l j le_rfl hvalid hj

lemma utf8_short_of_completable {l m : List Nat} (h0 : utf8ValidUpTo l = 0)
    (hvalid : Utf8Valid (l ++ m)) : l.length ≤ 3 := by
  rcases l with _ | ⟨b0, rest⟩
  · simp
  · cases hseq : utf8SeqLen ((b0 :: rest) ++ m) with
    | none =>
      exfalso
      unfold Utf8Valid at hvalid
      rw [utf8ValidUpTo_of_seq_none hseq] at hvalid
      simp at hvalid
    | some n =>
      by_cases hn : n ≤ (b0 :: rest).length
      · exfalso
        have hs := utf8SeqLen_of_append hseq hn
        have hv := utf8ValidUpTo_of_seq hs
        have hp := utf8SeqLen_pos hseq
        omega
      · have h4 := utf8SeqLen_le_four hseq
        simp at hn ⊢
        omega

/-! ### Lemmas on the decoder -/

lemma runFrom_chunks_valid (css : List (List Nat)) :
    ∀ (buffer : List Nat), Utf8Valid (buffer ++ css.flatten) →
    (okTexts (runFrom (ε := Unit) ⟨buffer, false⟩
        (css.map UpPoll.readyOk ++ [UpPoll.readyNone]))).flatten =
      buffer ++ css.flatten ∧
    errFree (runFrom (ε := Unit) ⟨buffer, false⟩
        (css.map UpPoll.readyOk ++ [UpPoll.readyNone])) = true := by
  induction css with
  | nil =>
    intro buffer hvalid
    simp only [List.flatten_nil, List.append_nil] at hvalid ⊢
    by_cases hemp : buffer.isEmpty
    · have hb : buffer = [] := by
        cases buffer with
        | nil => rfl
        | cons a t => simp [List.isEmpty] at hemp
      subst hb
      simp [runFrom, pollNext, okTexts, errFree]
    · have hv : utf8ValidUpTo buffer = buffer.length := hvalid
      simp [runFrom, pollNext, hemp, hv, okTexts, errFree]
  | cons c cs IH =>
    intro buffer hvalid
    have hassoc : buffer ++ (c :: cs).flatten = (buffer ++ c) ++ cs.flatten := by
      simp
    rw [hassoc] at hvalid
    have hvtake : Utf8Valid ((buffer ++ c).take (utf8ValidUpTo (buffer ++ c))) :=
      utf8Valid_take (buffer ++ c)
    have hsplit : (buffer ++ c).take (utf8ValidUpTo (buffer ++ c)) ++
        ((buffer ++ c).drop (utf8ValidUpTo (buffer ++ c)) ++ cs.flatten) =
        (buffer ++ c) ++ cs.flatten := by
      rw [← List.append_assoc, List.take_append_drop]
    have hvrest : Utf8Valid ((buffer ++ c).drop (utf8ValidUpTo (buffer ++ c)) ++ cs.flatten) := by
      apply utf8Valid_right_of_append hvtake
      rw [hsplit]
      exact hvalid
    have IH2 := IH ((buffer ++ c).drop (utf8ValidUpTo (buffer ++ c))) hvrest
    constructor
    · simp only [List.map_cons, List.cons_append, List.append_eq, runFrom, pollNext,
        Bool.false_eq_true, if_false, okTexts, List.flatten_cons]
      rw [IH2.1, ← List.append_assoc, List.take_append_drop]
      simp
    · simp only [List.map_cons, List.cons_append, List.append_eq, runFrom, pollNext,
        Bool.false_eq_true, if_false, errFree, List.all_cons]
      exact IH2.2

/-! ### Claim theorems: decoder -/

/-- Claim C1, counterexample: on the chunk `[0x41, 0xFF]` (empty buffer)
the suffix `[0xFF]` after the longest valid prefix `[0x41]` is a genuine
encoding error — no extension of `0xFF :: _` has a nonempty valid prefix —
yet the decoder returns `Ok "A"` and re-buffers `[0xFF]` instead of
failing with `Utf8Error` at offset 1. -/
theorem claim_C1_counterexample :
    pollNext (ε := Unit) ⟨[], false⟩ (UpPoll.readyOk [0x41, 0xFF]) =
      (⟨[0xFF], false⟩, DownPoll.itemOk [0x41]) ∧
    (∀ ext : List Nat, utf8ValidUpTo (0xFF :: ext) = 0) ∧
    utf8ValidUpTo [0x41, 0xFF] = 1 := by
  refine ⟨by decide, ?_, by decide⟩
  intro ext
  exact utf8ValidUpTo_of_seq_none (by simp [utf8SeqLen])

/-- Claim C1, amended: on a byte chunk the decoder never fails, even when
the suffix after the longest valid-UTF-8 prefix is a genuine encoding
error: it emits the longest valid prefix as an `Ok` item and re-buffers
the entire remaining suffix for the next call; a `Utf8Error` is reported
only at the end-of-input poll. -/
theorem claim_C1_amended (ε : Type) (buffer bytes : List Nat) :
    pollNext (ε := ε) ⟨buffer, false⟩ (UpPoll.readyOk bytes) =
      (⟨(buffer ++ bytes).drop (utf8ValidUpTo (buffer ++ bytes)), false⟩,
        DownPoll.itemOk ((buffer ++ bytes).take (utf8ValidUpTo (buffer ++ bytes)))) := by
  simp [pollNext]

/-- Claim C2, counterexample: after the single chunk
`[0xFF, 0xFF, 0xFF, 0xFF]` the residue buffer holds 4 bytes, exceeding
the claimed bound of 3 (maximum UTF-8 sequence length minus one). -/
theorem claim_C2_counterexample :
    pollNext (ε := Unit) ⟨[], false⟩ (UpPoll.readyOk [0xFF, 0xFF, 0xFF, 0xFF]) =
      (⟨[0xFF, 0xFF, 0xFF, 0xFF], false⟩, DownPoll.itemOk []) ∧
    3 < ([0xFF, 0xFF, 0xFF, 0xFF] : List Nat).length := by
  decide

/-- Claim C2, amended: across any single decode step on a live
(non-terminated) stream the residue buffer keeps the invariant that its
contents have no nonempty valid-UTF-8 prefix (in particular they never
decode validly by themselves) and are an unconsumed suffix of the
previously buffered bytes plus the newly received bytes; the 3-byte bound
holds whenever the residue can still be completed to valid UTF-8 by
further input, but a residue containing a genuine encoding error may
exceed 3 bytes. -/
theorem claim_C2_amended (ε : Type) (st : DecState) (u : UpPoll ε)
    (hterm : st.terminated = false) (hbuf : utf8ValidUpTo st.buffer = 0) :
    utf8ValidUpTo (pollNext st u).1.buffer = 0 ∧
    List.IsSuffix (pollNext st u).1.buffer (st.buffer ++ upBytes u) ∧
    (∀ ext, Utf8Valid ((pollNext st u).1.buffer ++ ext) →
      (pollNext st u).1.buffer.length ≤ 3) := by
  obtain ⟨buf, term⟩ := st
  simp only at hterm
  subst hterm
  cases u with
  | readyOk bytes =>
    simp only [pollNext, Bool.false_eq_true, if_false, upBytes]
    refine ⟨utf8ValidUpTo_drop (buf ++ bytes), List.drop_suffix _ _, ?_⟩
    intro ext hv
    exact utf8_short_of_completable (utf8ValidUpTo_drop (buf ++ bytes)) hv
  | readyErr e =>
    simp only [pollNext, Bool.false_eq_true, if_false, upBytes, List.append_nil]
    refine ⟨hbuf, List.suffix_refl _, ?_⟩
    intro ext hv
    exact utf8_short_of_completable hbuf hv
  | readyNone =>
    simp only [pollNext, Bool.false_eq_true, if_false, upBytes, List.append_nil]
    by_cases hemp : buf.isEmpty
    · simp [hemp, utf8ValidUpTo_nil]
    · by_cases hval : utf8ValidUpTo buf = buf.length
      · simp [hemp, hval, utf8ValidUpTo_nil]
      · simp [hemp, hval, utf8ValidUpTo_nil]
  | pending =>
    simp only [pollNext, Bool.false_eq_true, if_false, upBytes, List.append_nil]
    refine ⟨hbuf, List.suffix_refl _, ?_⟩
    intro ext hv
    exact utf8_short_of_completable hbuf hv

/-- Claim C2, witness: the amended step invariant applied to the empty
initial buffer receiving the truncated chunk `[0xC3]`. -/
theorem claim_C2_witness :
    utf8ValidUpTo (pollNext (ε := Unit) ⟨[], false⟩ (UpPoll.readyOk [0xC3])).1.buffer = 0 ∧
    List.IsSuffix (pollNext (ε := Unit) ⟨[], false⟩ (UpPoll.readyOk [0xC3])).1.buffer
      (([] : List Nat) ++ upBytes (UpPoll.readyOk (ε := Unit) [0xC3])) ∧
    (∀ ext, Utf8Valid ((pollNext (ε := Unit) ⟨[], false⟩
        (UpPoll.readyOk [0xC3])).1.buffer ++ ext) →
      (pollNext (ε := Unit) ⟨[], false⟩ (UpPoll.readyOk [0xC3])).1.buffer.length ≤ 3) :=
  claim_C2_amended Unit ⟨[], false⟩ (UpPoll.readyOk [0xC3]) rfl (by decide)

/-- Claim C4, counterexample: a `Transport` error does not terminate the
stream — with upstream `[Err, Ok "A", None]` the consumer observes an
`Ok` item and a clean end after the supposedly terminal error. -/
theorem claim_C4_counterexample :
    runFrom (ε := Unit) ⟨[], false⟩
      [UpPoll.readyErr (), UpPoll.readyOk [0x41], UpPoll.readyNone] =
      [DownPoll.itemTransportErr (), DownPoll.itemOk [0x41], DownPoll.readyNone] := by
  decide

/-- Claim C4, amended: once `terminated` is set every further poll
returns `Ready(None)` with unchanged state and without polling upstream;
a `Utf8Error` output and the end-of-input poll both set `terminated`, so
at most one `Utf8Error` is observed and nothing follows it; a `Transport`
error, however, leaves the state unchanged and not terminated, so items
may follow it. -/
theorem claim_C4_amended (ε : Type) (st : DecState) (u : UpPoll ε) :
    (st.terminated = true → pollNext st u = (st, DownPoll.readyNone)) ∧
    (∀ m, (pollNext st u).2 = DownPoll.itemUtf8Err m →
      (pollNext st u).1.terminated = true) ∧
    (st.terminated = false → u = UpPoll.readyNone →
      (pollNext st u).1.terminated = true) ∧
    (∀ e, (pollNext st u).2 = DownPoll.itemTransportErr e →
      (pollNext st u).1 = st ∧ st.terminated = false) := by
  obtain ⟨buf, term⟩ := st
  cases term with
  | true => simp [pollNext]
  | false =>
    cases u with
    | readyOk bytes => simp [pollNext]
    | readyErr e => simp [pollNext]
    | readyNone =>
      by_cases hemp : buf.isEmpty
      · simp [pollNext, hemp]
      · by_cases hval : utf8ValidUpTo buf = buf.length
        · simp [pollNext, hemp, hval]
        · simp [pollNext, hemp, hval]
    | pending => simp [pollNext]

/-- Claim C4, witness: a terminated decoder ignores a ready chunk and
returns `Ready(None)` with unchanged state. -/
theorem claim_C4_witness :
    pollNext (ε := Unit) ⟨[0xFF], true⟩ (UpPoll.readyOk [0x41]) =
      (⟨[0xFF], true⟩, DownPoll.readyNone) :=
  (claim_C4_amended Unit ⟨[0xFF], true⟩ (UpPoll.readyOk [0x41])).1 rfl

/-- Claim C5: for chunk sequences whose concatenation is valid UTF-8,
decoding chunk by chunk (followed by end-of-input) emits text chunks
concatenating to the same bytes as decoding the whole input as one chunk,
with no error in either run. -/
theorem claim_C5 (css : List (List Nat)) (hvalid : Utf8Valid css.flatten) :
    (okTexts (runFrom (ε := Unit) ⟨[], false⟩
        (css.map UpPoll.readyOk ++ [UpPoll.readyNone]))).flatten =
      (okTexts (runFrom (ε := Unit) ⟨[], false⟩
        ([css.flatten].map UpPoll.readyOk ++ [UpPoll.readyNone]))).flatten ∧
    errFree (runFrom (ε := Unit) ⟨[], false⟩
        (css.map UpPoll.readyOk ++ [UpPoll.readyNone])) = true ∧
    errFree (runFrom (ε := Unit) ⟨[], false⟩
        ([css.flatten].map UpPoll.readyOk ++ [UpPoll.readyNone])) = true := by
  have h1 := runFrom_chunks_valid css [] (by simpa using hvalid)
  have h2 := runFrom_chunks_valid [css.flatten] [] (by simpa using hvalid)
  refine ⟨?_, h1.2, h2.2⟩
  rw [h1.1, h2.1]
  simp

/-- Claim C5, witness: the two-byte character `é` (`0xC3 0xA9`) split
into two one-byte chunks decodes to the same bytes as the whole input in
one chunk. -/
theorem claim_C5_witness :
    Utf8Valid ([[0xC3], [0xA9]] : List (List Nat)).flatten ∧
    ((okTexts (runFrom (ε := Unit) ⟨[], false⟩
        (([[0xC3], [0xA9]] : List (List Nat)).map UpPoll.readyOk ++
          [UpPoll.readyNone]))).flatten =
      (okTexts (runFrom (ε := Unit) ⟨[], false⟩
        ([([[0xC3], [0xA9]] : List (List Nat)).flatten].map UpPoll.readyOk ++
          [UpPoll.readyNone]))).flatten ∧
      errFree (runFrom (ε := Unit) ⟨[], false⟩
        (([[0xC3], [0xA9]] : List (List Nat)).map UpPoll.readyOk ++
          [UpPoll.readyNone])) = true ∧
      errFree (runFrom (ε := Unit) ⟨[], false⟩
        ([([[0xC3], [0xA9]] : List (List Nat)).flatten].map UpPoll.readyOk ++
          [UpPoll.readyNone])) = true) :=
  ⟨by decide, claim_C5 [[0xC3], [0xA9]] (by decide)⟩

/-- Claim C9: on every successfully received byte chunk the decoder
yields an `Ok` item holding the longest valid-UTF-8 prefix of buffer ++
chunk (possibly empty) — the emitted prefix is valid and maximal — and
never a `Utf8Error`; a `Utf8Error` output can only arise at the
end-of-input poll of a non-terminated stream whose residue buffer is
non-empty and not valid UTF-8, and it carries that buffer's
`valid_up_to`. -/
theorem claim_C9 (ε : Type) :
    (∀ (buffer bytes : List Nat),
      pollNext (ε := ε) ⟨buffer, false⟩ (UpPoll.readyOk bytes) =
        (⟨(buffer ++ bytes).drop (utf8ValidUpTo (buffer ++ bytes)), false⟩,
          DownPoll.itemOk ((buffer ++ bytes).take (utf8ValidUpTo (buffer ++ bytes)))) ∧
      Utf8Valid ((buffer ++ bytes).take (utf8ValidUpTo (buffer ++ bytes))) ∧
      (∀ k, k ≤ (buffer ++ bytes).length → Utf8Valid ((buffer ++ bytes).take k) →
        k ≤ utf8ValidUpTo (buffer ++ bytes))) ∧
    (∀ (st : DecState) (u : UpPoll ε) (m : Nat),
      (pollNext st u).2 = DownPoll.itemUtf8Err m →
      st.terminated = false ∧ u = UpPoll.readyNone ∧ st.buffer ≠ [] ∧
        ¬ Utf8Valid st.buffer ∧ m = utf8ValidUpTo st.buffer) := by
  constructor
  · intro buffer bytes
    refine ⟨by simp [pollNext], utf8Valid_take _, ?_⟩
    intro k hk hval
    exact utf8ValidUpTo_maximal hval hk
  · intro st u m h
    obtain ⟨buf, term⟩ := st
    cases term with
    | true => simp [pollNext] at h
    | false =>
      cases u with
      | readyOk bytes => simp [pollNext] at h
      | readyErr e => simp [pollNext] at h
      | readyNone =>
        by_cases hemp : buf.isEmpty
        · simp [pollNext, hemp] at h
        · by_cases hval : utf8ValidUpTo buf = buf.length
          · simp [pollNext, hemp, hval] at h
          · simp only [pollNext, Bool.false_eq_true, if_false, hemp, hval,
              Bool.false_eq_true, if_false, DownPoll.itemUtf8Err.injEq] at h
            refine ⟨rfl, rfl, ?_, hval, h.symm⟩
            intro hc
            subst hc
            simp [List.isEmpty] at hemp
      | pending => simp [pollNext] at h

/-- Claim C9, witness: the truncated buffer `[0xC3]` at end-of-input
yields a `Utf8Error` with `valid_up_to = 0`, and the maximality bound
instantiated on the chunk `"A"`. -/
theorem claim_C9_witness :
    ((⟨[0xC3], false⟩ : DecState).terminated = false ∧
      (UpPoll.readyNone : UpPoll Unit) = UpPoll.readyNone ∧
      ([0xC3] : List Nat) ≠ [] ∧ ¬ Utf8Valid [0xC3] ∧
      0 = utf8ValidUpTo [0xC3]) ∧
    1 ≤ utf8ValidUpTo (([] : List Nat) ++ [0x41]) :=
  ⟨(claim_C9 Unit).2 ⟨[0xC3], false⟩ UpPoll.readyNone 0 (by decide),
    ((claim_C9 Unit).1 [] [0x41]).2.2 1 (by decide) (by decide)⟩

/-! ### Lemmas on the streaming combinators -/

lemma dropWhile_append_ne_nil {p : Char → Bool} :
    ∀ {i : Input} (b : Input), i.dropWhile p ≠ [] →
      (i ++ b).dropWhile p = i.dropWhile p ++ b := by
  intro i
  induction i with
  | nil => intro b h; simp at h
  | cons c t IH =>
    intro b h
    by_cases hc : p c
    · rw [List.dropWhile_cons_of_pos hc] at h
      simp only [List.cons_append, List.dropWhile_cons_of_pos hc]
      exact IH b h
    · simp only [List.cons_append, List.dropWhile_cons_of_neg hc]

lemma takeWhile_append_ne_nil {p : Char → Bool} :
    ∀ {i : Input} (b : Input), i.dropWhile p ≠ [] →
      (i ++ b).takeWhile p = i.takeWhile p := by
  intro i
  induction i with
  | nil => intro b h; simp at h
  | cons c t IH =>
    intro b h
    by_cases hc : p c
    · rw [List.dropWhile_cons_of_pos hc] at h
      simp only [List.cons_append, List.takeWhile_cons_of_pos hc]
      rw [IH b h]
    · simp only [List.cons_append, List.takeWhile_cons_of_neg hc]

lemma takeWhile_append_all {p : Char → Bool} :
    ∀ {a : Input} (l : Input), (∀ x ∈ a, p x = true) →
      (a ++ l).takeWhile p = a ++ l.takeWhile p := by
  intro a
  induction a with
  | nil => intro l _; simp
  | cons c t IH =>
    intro l h
    have hc : p c = true := h c (by simp)
    simp only [List.cons_append, List.takeWhile_cons_of_pos hc]
    rw [IH l fun x hx => h x (by simp [hx])]

lemma dropWhile_append_all {p : Char → Bool} :
    ∀ {a : Input} (l : Input), (∀ x ∈ a, p x = true) →
      (a ++ l).dropWhile p = l.dropWhile p := by
  intro a
  induction a with
  | nil => intro l _; simp
  | cons c t IH =>
    intro l h
    have hc : p c = true := h c (by simp)
    simp only [List.cons_append, List.dropWhile_cons_of_pos hc]
    exact IH l fun x hx => h x (by simp [hx])

lemma tagP_ok_inv {t i i1 : Input} {v : Input} (h : tagP t i = .ok i1 v) :
    v = t ∧ t.isPrefixOf i = true ∧ i1 = i.drop t.length := by
  unfold tagP at h
  split at h
  · cases h
    exact ⟨rfl, by assumption, rfl⟩
  · split at h <;> cases h

lemma isEmpty_false_of_ne {l : Input} (h : l ≠ []) : l.isEmpty = false := by
  cases l with
  | nil => exact absurd rfl h
  | cons x xs => rfl

lemma append_ne_nil_left {a b : Input} (ha : a ≠ []) : a ++ b ≠ [] := by
  cases a with
  | nil => exact absurd rfl ha
  | cons x xs => simp

lemma tagP_err_inv {t i : Input} (h : tagP t i = .err) :
    t.isPrefixOf i = false ∧ i.isPrefixOf t = false := by
  unfold tagP at h
  by_cases h1 : t.isPrefixOf i = true
  · rw [if_pos h1] at h; cases h
  · rw [if_neg h1] at h
    by_cases h2 : i.isPrefixOf t = true
    · rw [if_pos h2] at h; cases h
    · constructor
      · rw [Bool.eq_false_iff]
        intro hc
        exact h1 hc
      · rw [Bool.eq_false_iff]
        intro hc
        exact h2 hc

lemma tagP_ok_append {t i b i1 : Input} {v : Input} (h : tagP t i = .ok i1 v) :
    tagP t (i ++ b) = .ok (i1 ++ b) v := by
  obtain ⟨hv, hpre, hi1⟩ := tagP_ok_inv h
  have hp : t <+: i := List.isPrefixOf_iff_prefix.mp hpre
  have hp2 : t <+: i ++ b := hp.trans (List.prefix_append i b)
  unfold tagP
  rw [if_pos (List.isPrefixOf_iff_prefix.mpr hp2),
    List.drop_append_of_le_length hp.length_le, hv, hi1]

lemma tagP_err_append {t i b : Input} (h : tagP t i = .err) :
    tagP t (i ++ b) = .err := by
  obtain ⟨h1, h2⟩ := tagP_err_inv h
  unfold tagP
  have hni : ¬ t <+: i := fun hc => by simp [List.isPrefixOf_iff_prefix.mpr hc] at h1
  have hnit : ¬ i <+: t := fun hc => by simp [List.isPrefixOf_iff_prefix.mpr hc] at h2
  have hn1 : ¬ t <+: i ++ b := by
    intro hc
    by_cases hl : t.length ≤ i.length
    · exact hni (List.prefix_of_prefix_length_le hc (List.prefix_append i b) hl)
    · exact hnit (List.prefix_of_prefix_length_le (List.prefix_append i b) hc (by omega))
  have hn2 : ¬ (i ++ b).isPrefixOf t = true := by
    intro hc
    have := (List.isPrefixOf_iff_prefix.mp hc)
    exact hnit ((List.prefix_append i b).trans this)
  rw [if_neg fun hc => hn1 (List.isPrefixOf_iff_prefix.mp hc), if_neg hn2]

lemma take1_ok_inv {p : Char → Bool} {i i1 : Input} {v : Input}
    (h : take1 p i = .ok i1 v) : ∃ c, i = c :: i1 ∧ p c = true ∧ v = [c] := by
  match i with
  | [] => cases h
  | c :: rest =>
    by_cases hc : p c = true
    · rw [show take1 p (c :: rest) = .ok rest [c] from by simp [take1, hc]] at h
      cases h
      exact ⟨c, rfl, hc, rfl⟩
    · rw [show take1 p (c :: rest) = .err from by simp [take1, hc]] at h
      cases h

lemma take1_err_inv {p : Char → Bool} {i : Input} (h : take1 p i = .err) :
    ∃ c t, i = c :: t ∧ p c = false := by
  match i with
  | [] => cases h
  | c :: rest =>
    by_cases hc : p c = true
    · rw [show take1 p (c :: rest) = .ok rest [c] from by simp [take1, hc]] at h
      cases h
    · exact ⟨c, rest, rfl, by simpa using hc⟩

lemma take1_ok_append {p : Char → Bool} {i b i1 : Input} {v : Input}
    (h : take1 p i = .ok i1 v) : take1 p (i ++ b) = .ok (i1 ++ b) v := by
  obtain ⟨c, hi, hc, hv⟩ := take1_ok_inv h
  subst hi hv
  simp [take1, hc]

lemma take1_err_append {p : Char → Bool} {i b : Input} (h : take1 p i = .err) :
    take1 p (i ++ b) = .err := by
  obtain ⟨c, t, hi, hc⟩ := take1_err_inv h
  subst hi
  simp [take1, hc]

lemma takeWhileP_ok_inv {p : Char → Bool} {i i1 : Input} {v : Input}
    (h : takeWhileP p i = .ok i1 v) :
    i1 = i.dropWhile p ∧ v = i.takeWhile p ∧ i.dropWhile p ≠ [] := by
  unfold takeWhileP at h
  by_cases hd : (i.dropWhile p).isEmpty = true
  · rw [if_pos hd] at h; cases h
  · rw [if_neg hd] at h
    cases h
    refine ⟨rfl, rfl, fun hc => hd (by simp [hc])⟩

lemma takeWhileP_no_err {p : Char → Bool} {i : Input} : takeWhileP p i ≠ .err := by
  unfold takeWhileP
  split <;> simp

lemma takeWhileP_ok_append {p : Char → Bool} {i b i1 : Input} {v : Input}
    (h : takeWhileP p i = .ok i1 v) : takeWhileP p (i ++ b) = .ok (i1 ++ b) v := by
  obtain ⟨hi1, hv, hne⟩ := takeWhileP_ok_inv h
  unfold takeWhileP
  rw [dropWhile_append_ne_nil b hne, takeWhile_append_ne_nil b hne,
    if_neg (by simp [isEmpty_false_of_ne (append_ne_nil_left hne)]), hi1, hv]

lemma takeWhile1P_ok_inv {p : Char → Bool} {i i1 : Input} {v : Input}
    (h : takeWhile1P p i = .ok i1 v) :
    i1 = i.dropWhile p ∧ v = i.takeWhile p ∧ i.dropWhile p ≠ [] ∧
      i.takeWhile p ≠ [] := by
  unfold takeWhile1P at h
  by_cases hd : (i.dropWhile p).isEmpty = true
  · rw [if_pos hd] at h; cases h
  · rw [if_neg hd] at h
    by_cases ht : (i.takeWhile p).isEmpty = true
    · rw [if_pos ht] at h; cases h
    · rw [if_neg ht] at h
      cases h
      exact ⟨rfl, rfl, fun hc => hd (by simp [hc]), fun hc => ht (by simp [hc])⟩

lemma takeWhile1P_err_inv {p : Char → Bool} {i : Input} (h : takeWhile1P p i = .err) :
    i.dropWhile p ≠ [] ∧ i.takeWhile p = [] := by
  unfold takeWhile1P at h
  by_cases hd : (i.dropWhile p).isEmpty = true
  · rw [if_pos hd] at h; cases h
  · rw [if_neg hd] at h
    by_cases ht : (i.takeWhile p).isEmpty = true
    · exact ⟨fun hc => hd (by simp [hc]), by simpa using ht⟩
    · rw [if_neg ht] at h; cases h

lemma takeWhile1P_ok_append {p : Char → Bool} {i b i1 : Input} {v : Input}
    (h : takeWhile1P p i = .ok i1 v) : takeWhile1P p (i ++ b) = .ok (i1 ++ b) v := by
  obtain ⟨hi1, hv, hne, hne2⟩ := takeWhile1P_ok_inv h
  unfold takeWhile1P
  rw [dropWhile_append_ne_nil b hne, takeWhile_append_ne_nil b hne,
    if_neg (by simp [isEmpty_false_of_ne (append_ne_nil_left hne)]),
    if_neg (by simp [isEmpty_false_of_ne hne2]), hi1, hv]

lemma takeWhile1P_err_append {p : Char → Bool} {i b : Input}
    (h : takeWhile1P p i = .err) : takeWhile1P p (i ++ b) = .err := by
  obtain ⟨hne, htw⟩ := takeWhile1P_err_inv h
  unfold takeWhile1P
  rw [dropWhile_append_ne_nil b hne, takeWhile_append_ne_nil b hne,
    if_neg (by simp [isEmpty_false_of_ne (append_ne_nil_left hne)]), htw]
  simp

/-! ### Lemmas on the line lexers -/

lemma end_of_line_nil : end_of_line [] = .incomplete := rfl

lemma eol_ok_append {i b i1 : Input} {v : Input} (h : end_of_line i = .ok i1 v) :
    end_of_line (i ++ b) = .ok (i1 ++ b) v := by
  unfold end_of_line at h ⊢
  cases hc1 : crlf i with
  | incomplete => rw [hc1] at h; exact PRes.noConfusion h
  | ok r w =>
    rw [hc1] at h
    cases h
    have hc1' : tagP ['\u000D', '\u000A'] i = .ok i1 v := hc1
    rw [show crlf (i ++ b) = .ok (i1 ++ b) v from tagP_ok_append hc1']
  | err =>
    rw [hc1] at h
    have hc1' : tagP ['\u000D', '\u000A'] i = .err := hc1
    rw [show crlf (i ++ b) = .err from tagP_err_append hc1']
    cases hc2 : take1 is_cr i with
    | incomplete => rw [hc2] at h; exact PRes.noConfusion h
    | ok r w =>
      rw [hc2] at h
      cases h
      rw [take1_ok_append hc2]
    | err =>
      rw [hc2] at h
      rw [take1_err_append hc2]
      exact take1_ok_append h

lemma eol_err_append {i b : Input} (h : end_of_line i = .err) :
    end_of_line (i ++ b) = .err := by
  unfold end_of_line at h ⊢
  cases hc1 : crlf i with
  | incomplete => rw [hc1] at h; exact PRes.noConfusion h
  | ok r w => rw [hc1] at h; exact PRes.noConfusion h
  | err =>
    rw [hc1] at h
    have hc1' : tagP ['\u000D', '\u000A'] i = .err := hc1
    rw [show crlf (i ++ b) = .err from tagP_err_append hc1']
    cases hc2 : take1 is_cr i with
    | incomplete => rw [hc2] at h; exact PRes.noConfusion h
    | ok r w => rw [hc2] at h; exact PRes.noConfusion h
    | err =>
      rw [hc2] at h
      rw [take1_err_append hc2]
      exact take1_err_append h

lemma eol_ok_lt {i i1 : Input} {v : Input} (h : end_of_line i = .ok i1 v) :
    i1.length < i.length := by
  unfold end_of_line at h
  cases hc1 : crlf i with
  | incomplete => rw [hc1] at h; exact PRes.noConfusion h
  | ok r w =>
    rw [hc1] at h
    cases h
    obtain ⟨hv, hpre, hi1⟩ := tagP_ok_inv (show tagP ['\u000D', '\u000A'] i = .ok i1 v from hc1)
    have := (List.isPrefixOf_iff_prefix.mp hpre).length_le
    subst hi1
    simp at this ⊢
    omega
  | err =>
    rw [hc1] at h
    cases hc2 : take1 is_cr i with
    | incomplete => rw [hc2] at h; exact PRes.noConfusion h
    | ok r w =>
      rw [hc2] at h
      cases h
      obtain ⟨c, hi, _, _⟩ := take1_ok_inv hc2
      subst hi
      simp
    | err =>
      rw [hc2] at h
      obtain ⟨c, hi, _, _⟩ := take1_ok_inv h
      subst hi
      simp

lemma comment_ok_append {i b i1 : Input} {l : RawEventLine} (h : comment i = .ok i1 l) :
    comment (i ++ b) = .ok (i1 ++ b) l := by
  cases hc1 : take1 is_colon i with
  | incomplete => simp only [comment, pbind, hc1] at h; exact PRes.noConfusion h
  | err => simp only [comment, pbind, hc1] at h; exact PRes.noConfusion h
  | ok j1 w1 =>
    cases hc2 : takeWhileP is_any_char j1 with
    | incomplete => simp only [comment, pbind, hc1, hc2] at h; exact PRes.noConfusion h
    | err => exact absurd hc2 takeWhileP_no_err
    | ok j2 text =>
      cases hc3 : end_of_line j2 with
      | incomplete => simp only [comment, pbind, hc1, hc2, hc3] at h; exact PRes.noConfusion h
      | err => simp only [comment, pbind, hc1, hc2, hc3] at h; exact PRes.noConfusion h
      | ok j3 w3 =>
        simp only [comment, pbind, hc1, hc2, hc3] at h
        cases h
        simp only [comment, pbind, take1_ok_append hc1, takeWhileP_ok_append hc2,
          eol_ok_append hc3]

lemma comment_err_append {i b : Input} (h : comment i = .err) :
    comment (i ++ b) = .err := by
  cases hc1 : take1 is_colon i with
  | incomplete => simp only [comment, pbind, hc1] at h; exact PRes.noConfusion h
  | err => simp only [comment, pbind, take1_err_append hc1]
  | ok j1 w1 =>
    cases hc2 : takeWhileP is_any_char j1 with
    | incomplete => simp only [comment, pbind, hc1, hc2] at h; exact PRes.noConfusion h
    | err => exact absurd hc2 takeWhileP_no_err
    | ok j2 text =>
      cases hc3 : end_of_line j2 with
      | incomplete => simp only [comment, pbind, hc1, hc2, hc3] at h; exact PRes.noConfusion h
      | ok j3 w3 => simp only [comment, pbind, hc1, hc2, hc3] at h; exact PRes.noConfusion h
      | err =>
        simp only [comment, pbind, take1_ok_append hc1, takeWhileP_ok_append hc2,
          eol_err_append hc3]

lemma comment_ok_lt {i i1 : Input} {l : RawEventLine} (h : comment i = .ok i1 l) :
    i1.length < i.length := by
  cases hc1 : take1 is_colon i with
  | incomplete => simp only [comment, pbind, hc1] at h; exact PRes.noConfusion h
  | err => simp only [comment, pbind, hc1] at h; exact PRes.noConfusion h
  | ok j1 w1 =>
    cases hc2 : takeWhileP is_any_char j1 with
    | incomplete => simp only [comment, pbind, hc1, hc2] at h; exact PRes.noConfusion h
    | err => exact absurd hc2 takeWhileP_no_err
    | ok j2 text =>
      cases hc3 : end_of_line j2 with
      | incomplete => simp only [comment, pbind, hc1, hc2, hc3] at h; exact PRes.noConfusion h
      | err => simp only [comment, pbind, hc1, hc2, hc3] at h; exact PRes.noConfusion h
      | ok j3 w3 =>
        simp only [comment, pbind, hc1, hc2, hc3] at h
        cases h
        obtain ⟨c, hi, _, _⟩ := take1_ok_inv hc1
        obtain ⟨hj2, _, _⟩ := takeWhileP_ok_inv hc2
        have h2 : j2.length ≤ j1.length := by
          rw [hj2]
          exact (List.dropWhile_suffix is_any_char).length_le
        have h3 := eol_ok_lt hc3
        subst hi
        simp
        omega

lemma fieldValueTail_ok_append {nm : Input} {j b j1 : Input} {l : RawEventLine}
    (h : fieldValueTail nm j = .ok j1 l) :
    fieldValueTail nm (j ++ b) = .ok (j1 ++ b) l := by
  cases hc2 : takeWhileP is_any_char j with
  | incomplete => simp only [fieldValueTail, pbind, hc2] at h; exact PRes.noConfusion h
  | err => exact absurd hc2 takeWhileP_no_err
  | ok j2 text =>
    cases hc3 : end_of_line j2 with
    | incomplete => simp only [fieldValueTail, pbind, hc2, hc3] at h; exact PRes.noConfusion h
    | err => simp only [fieldValueTail, pbind, hc2, hc3] at h; exact PRes.noConfusion h
    | ok j3 w3 =>
      simp only [fieldValueTail, pbind, hc2, hc3] at h
      cases h
      simp only [fieldValueTail, pbind, takeWhileP_ok_append hc2, eol_ok_append hc3]

lemma fieldValueTail_ok_lt {nm : Input} {j j1 : Input} {l : RawEventLine}
    (h : fieldValueTail nm j = .ok j1 l) : j1.length < j.length := by
  cases hc2 : takeWhileP is_any_char j with
  | incomplete => simp only [fieldValueTail, pbind, hc2] at h; exact PRes.noConfusion h
  | err => exact absurd hc2 takeWhileP_no_err
  | ok j2 text =>
    cases hc3 : end_of_line j2 with
    | incomplete => simp only [fieldValueTail, pbind, hc2, hc3] at h; exact PRes.noConfusion h
    | err => simp only [fieldValueTail, pbind, hc2, hc3] at h; exact PRes.noConfusion h
    | ok j3 w3 =>
      simp only [fieldValueTail, pbind, hc2, hc3] at h
      cases h
      obtain ⟨hj2, _, _⟩ := takeWhileP_ok_inv hc2
      have h2 : j2.length ≤ j.length := by
        rw [hj2]
        exact (List.dropWhile_suffix is_any_char).length_le
      have h3 := eol_ok_lt hc3
      omega

lemma field_ok_append {i b i1 : Input} {l : RawEventLine} (h : field i = .ok i1 l) :
    field (i ++ b) = .ok (i1 ++ b) l := by
  cases hc1 : takeWhile1P is_name_char i with
  | incomplete => simp only [field, pbind, hc1] at h; exact PRes.noConfusion h
  | err => simp only [field, pbind, hc1] at h; exact PRes.noConfusion h
  | ok j1 nm =>
    simp only [field, pbind, hc1] at h
    simp only [field, pbind, takeWhile1P_ok_append hc1]
    cases hc2 : take1 is_colon j1 with
    | incomplete => simp only [hc2] at h; exact PRes.noConfusion h
    | err =>
      simp only [hc2] at h
      simp only [take1_err_append hc2]
      cases hc3 : end_of_line j1 with
      | incomplete => simp only [hc3] at h; exact PRes.noConfusion h
      | err => simp only [hc3] at h; exact PRes.noConfusion h
      | ok j3 w3 =>
        simp only [hc3] at h
        cases h
        simp only [eol_ok_append hc3]
    | ok j2 w2 =>
      simp only [hc2] at h
      simp only [take1_ok_append hc2]
      cases hc4 : take1 is_space j2 with
      | incomplete => simp only [hc4] at h; exact PRes.noConfusion h
      | err =>
        simp only [hc4] at h
        simp only [take1_err_append hc4]
        exact fieldValueTail_ok_append h
      | ok j3 w3 =>
        simp only [hc4] at h
        simp only [take1_ok_append hc4]
        exact fieldValueTail_ok_append h

lemma field_ok_lt {i i1 : Input} {l : RawEventLine} (h : field i = .ok i1 l) :
    i1.length < i.length := by
  cases hc1 : takeWhile1P is_name_char i with
  | incomplete => simp only [field, pbind, hc1] at h; exact PRes.noConfusion h
  | err => simp only [field, pbind, hc1] at h; exact PRes.noConfusion h
  | ok j1 nm =>
    simp only [field, pbind, hc1] at h
    obtain ⟨hj1, _, _, _⟩ := takeWhile1P_ok_inv hc1
    have hle1 : j1.length ≤ i.length := by
      rw [hj1]
      exact (List.dropWhile_suffix is_name_char).length_le
    cases hc2 : take1 is_colon j1 with
    | incomplete => simp only [hc2] at h; exact PRes.noConfusion h
    | err =>
      simp only [hc2] at h
      cases hc3 : end_of_line j1 with
      | incomplete => simp only [hc3] at h; exact PRes.noConfusion h
      | err => simp only [hc3] at h; exact PRes.noConfusion h
      | ok j3 w3 =>
        simp only [hc3] at h
        cases h
        have := eol_ok_lt hc3
        omega
    | ok j2 w2 =>
      simp only [hc2] at h
      obtain ⟨c, hj, _, _⟩ := take1_ok_inv hc2
      have hle2 : j2.length < j1.length := by rw [hj]; simp
      cases hc4 : take1 is_space j2 with
      | incomplete => simp only [hc4] at h; exact PRes.noConfusion h
      | err =>
        simp only [hc4] at h
        have := fieldValueTail_ok_lt h
        omega
      | ok j3 w3 =>
        simp only [hc4] at h
        obtain ⟨c', hj', _, _⟩ := take1_ok_inv hc4
        have hle3 : j3.length < j2.length := by rw [hj']; simp
        have := fieldValueTail_ok_lt h
        omega

lemma event_line_ok_append {i b i1 : Input} {l : RawEventLine}
    (h : event_line i = .ok i1 l) : event_line (i ++ b) = .ok (i1 ++ b) l := by
  unfold event_line at h ⊢
  cases hc1 : comment i with
  | incomplete => rw [hc1] at h; exact PRes.noConfusion h
  | ok r w =>
    rw [hc1] at h
    cases h
    rw [comment_ok_append hc1]
  | err =>
    rw [hc1] at h
    rw [comment_err_append hc1]
    exact field_ok_append h

lemma event_line_ok_lt {i i1 : Input} {l : RawEventLine}
    (h : event_line i = .ok i1 l) : i1.length < i.length := by
  unfold event_line at h
  cases hc1 : comment i with
  | incomplete => rw [hc1] at h; exact PRes.noConfusion h
  | ok r w =>
    rw [hc1] at h
    cases h
    exact comment_ok_lt hc1
  | err =>
    rw [hc1] at h
    exact field_ok_lt h

/-! ### Lemmas on the event loops -/

lemma eventF_nil (fuel : Nat) : eventF fuel [] = .incomplete := by
  cases fuel <;> simp only [eventF, eventStep, end_of_line_nil]

lemma eventF_congr : ∀ (f g : Nat) (i : Input), i.length ≤ f → i.length ≤ g →
    eventF f i = eventF g i := by
  intro f
  induction f with
  | zero =>
    intro g i hf _
    have hi : i = [] := List.length_eq_zero.mp (Nat.le_zero.mp hf)
    subst hi
    rw [eventF_nil, eventF_nil]
  | succ f IH =>
    intro g i hf hg
    cases g with
    | zero =>
      have hi : i = [] := List.length_eq_zero.mp (Nat.le_zero.mp hg)
      subst hi
      rw [eventF_nil, eventF_nil]
    | succ g =>
      cases heol : end_of_line i with
      | ok i1 v => simp only [eventF, eventStep, heol]
      | incomplete => simp only [eventF, eventStep, heol]
      | err =>
        cases hline : event_line i with
        | incomplete => simp only [eventF, eventStep, heol, hline]
        | err => simp only [eventF, eventStep, heol, hline]
        | ok i1 l =>
          have hlt := event_line_ok_lt hline
          by_cases hguard : i1.length = i.length
          · simp only [eventF, eventStep, heol, hline, if_pos hguard]
          · simp only [eventF, eventStep, heol, hline, if_neg hguard]
            rw [IH g i1 (by omega) (by omega)]

lemma event_eq (i : Input) : event i = eventStep event i := by
  unfold event
  cases hi : i.length with
  | zero =>
    have hnil : i = [] := List.length_eq_zero.mp hi
    subst hnil
    simp only [eventF, eventStep, end_of_line_nil]
  | succ k =>
    simp only [eventF]
    cases heol : end_of_line i with
    | ok i1 v => simp only [eventStep, heol]
    | incomplete => simp only [eventStep, heol]
    | err =>
      cases hline : event_line i with
      | incomplete => simp only [eventStep, heol, hline]
      | err => simp only [eventStep, heol, hline]
      | ok i1 l =>
        have hlt := event_line_ok_lt hline
        by_cases hguard : i1.length = i.length
        · simp only [eventStep, heol, hline, if_pos hguard]
        · simp only [eventStep, heol, hline, if_neg hguard]
          rw [eventF_congr i1.length k i1 le_rfl (by omega)]

lemma event_nil : event [] = .incomplete := eventF_nil 0

lemma event_ok_lt_fuel : ∀ (k : Nat) {i i1 : Input} {ls : List RawEventLine},
    i.length ≤ k → event i = .ok i1 ls → i1.length < i.length := by
  intro k
  induction k with
  | zero =>
    intro i i1 ls hk h
    have hi : i = [] := List.length_eq_zero.mp (Nat.le_zero.mp hk)
    subst hi
    rw [event_nil] at h
    exact PRes.noConfusion h
  | succ k IH =>
    intro i i1 ls hk h
    rw [event_eq] at h
    cases heol : end_of_line i with
    | ok j v =>
      simp only [eventStep, heol] at h
      cases h
      exact eol_ok_lt heol
    | incomplete => simp only [eventStep, heol] at h; exact PRes.noConfusion h
    | err =>
      cases hline : event_line i with
      | incomplete => simp only [eventStep, heol, hline] at h; exact PRes.noConfusion h
      | err => simp only [eventStep, heol, hline] at h; exact PRes.noConfusion h
      | ok j l =>
        have hlt := event_line_ok_lt hline
        simp only [eventStep, heol, hline,
          if_neg (show ¬ j.length = i.length by omega)] at h
        cases hrec : event j with
        | ok i2 ls2 =>
          simp only [hrec] at h
          cases h
          have := IH (by omega) hrec
          omega
        | incomplete => simp only [hrec] at h; exact PRes.noConfusion h
        | err => simp only [hrec] at h; exact PRes.noConfusion h

lemma event_ok_lt {i i1 : Input} {ls : List RawEventLine}
    (h : event i = .ok i1 ls) : i1.length < i.length :=
  event_ok_lt_fuel i.length le_rfl h

lemma event_ok_append : ∀ (k : Nat) {i b i1 : Input} {ls : List RawEventLine},
    i.length ≤ k → event i = .ok i1 ls → event (i ++ b) = .ok (i1 ++ b) ls := by
  intro k
  induction k with
  | zero =>
    intro i b i1 ls hk h
    have hi : i = [] := List.length_eq_zero.mp (Nat.le_zero.mp hk)
    subst hi
    rw [event_nil] at h
    exact PRes.noConfusion h
  | succ k IH =>
    intro i b i1 ls hk h
    rw [event_eq] at h
    rw [event_eq]
    cases heol : end_of_line i with
    | ok j v =>
      simp only [eventStep, heol] at h
      cases h
      simp only [eventStep, eol_ok_append heol]
    | incomplete => simp only [eventStep, heol] at h; exact PRes.noConfusion h
    | err =>
      simp only [eventStep, heol] at h
      simp only [eventStep, eol_err_append heol]
      cases hline : event_line i with
      | incomplete => simp only [hline] at h; exact PRes.noConfusion h
      | err => simp only [hline] at h; exact PRes.noConfusion h
      | ok j l =>
        simp only [hline] at h
        simp only [event_line_ok_append hline]
        have hlt := event_line_ok_lt hline
        rw [if_neg (show ¬ j.length = i.length by omega)] at h
        rw [if_neg (show ¬ (j ++ b).length = (i ++ b).length by simp; omega)]
        cases hrec : event j with
        | ok i2 ls2 =>
          simp only [hrec] at h
          cases h
          rw [IH (by omega) hrec]
        | incomplete => simp only [hrec] at h; exact PRes.noConfusion h
        | err => simp only [hrec] at h; exact PRes.noConfusion h

lemma eventsF_congr : ∀ (f g : Nat) (i : Input), i.length + 1 ≤ f → i.length + 1 ≤ g →
    eventsF f i = eventsF g i := by
  intro f
  induction f with
  | zero =>
    intro g i hf _
    omega
  | succ f IH =>
    intro g i hf hg
    obtain ⟨g', hg'⟩ : ∃ g', g = g' + 1 := ⟨g - 1, by omega⟩
    subst hg'
    cases hev : event i with
    | ok i1 e =>
      have hlt := event_ok_lt hev
      simp only [eventsF, eventsStep, hev]
      rw [IH g' i1 (by omega) (by omega)]
    | incomplete => simp only [eventsF, eventsStep, hev]
    | err => simp only [eventsF, eventsStep, hev]

lemma events_eq (i : Input) : events i = eventsStep events i := by
  cases hev : event i with
  | ok i1 e =>
    have hlt := event_ok_lt hev
    show eventsF (i.length + 1) i = eventsStep events i
    simp only [eventsF, eventsStep, hev]
    rw [eventsF_congr i.length (i1.length + 1) i1 (by omega) le_rfl]
    rfl
  | incomplete =>
    show eventsF (i.length + 1) i = eventsStep events i
    simp only [eventsF, eventsStep, hev]
  | err =>
    show eventsF (i.length + 1) i = eventsStep events i
    simp only [eventsF, eventsStep, hev]

lemma events_nil : events [] = ([], []) := by
  rw [events_eq]
  simp only [eventsStep, event_nil]

lemma events_residue : ∀ (k : Nat) (i : Input), i.length ≤ k →
    events ((events i).1) = ((events i).1, []) := by
  intro k
  induction k with
  | zero =>
    intro i hk
    have hi : i = [] := List.length_eq_zero.mp (Nat.le_zero.mp hk)
    subst hi
    rw [events_nil]
    exact events_nil
  | succ k IH =>
    intro i hk
    rw [events_eq i]
    cases hev : event i with
    | ok i1 e =>
      have hlt := event_ok_lt hev
      simp only [eventsStep, hev]
      exact IH i1 (by omega)
    | incomplete =>
      simp only [eventsStep, hev]
      rw [events_eq i]
      simp only [eventsStep, hev]
    | err =>
      simp only [eventsStep, hev]
      rw [events_eq i]
      simp only [eventsStep, hev]

lemma events_append : ∀ (k : Nat) (i b : Input), i.length ≤ k →
    events (i ++ b) = ((events ((events i).1 ++ b)).1,
      (events i).2 ++ (events ((events i).1 ++ b)).2) := by
  intro k
  induction k with
  | zero =>
    intro i b hk
    have hi : i = [] := List.length_eq_zero.mp (Nat.le_zero.mp hk)
    subst hi
    rw [events_nil]
    simp
  | succ k IH =>
    intro i b hk
    cases hev : event i with
    | ok i1 e =>
      have hlt := event_ok_lt hev
      have hstab := event_ok_append (k + 1) (b := b) hk hev
      rw [events_eq (i ++ b)]
      simp only [eventsStep, hstab]
      rw [events_eq i]
      simp only [eventsStep, hev]
      rw [IH i1 b (by omega)]
      simp
    | incomplete =>
      rw [events_eq i]
      simp only [eventsStep, hev]
      simp
    | err =>
      rw [events_eq i]
      simp only [eventsStep, hev]
      simp

lemma feedPieces_events : ∀ (ps : List Input) (r : Input), events r = (r, []) →
    feedPieces r ps = events (r ++ ps.flatten) := by
  intro ps
  induction ps with
  | nil =>
    intro r hr
    simp only [feedPieces, List.flatten_nil, List.append_nil, hr]
  | cons p ps IH =>
    intro r hr
    simp only [feedPieces]
    have hres := events_residue ((r ++ p).length) (r ++ p) le_rfl
    rw [IH _ hres]
    have happ := events_append ((r ++ p).length) (r ++ p) ps.flatten le_rfl
    rw [show r ++ (p :: ps).flatten = (r ++ p) ++ ps.flatten by simp]
    rw [happ]

/-! ### Claim theorems: residue threading and empty events -/

/-- Claim C6: feeding any splitting of a text piece by piece, prepending
the previous unconsumed residue each time, produces exactly the residue
and event sequence of parsing the whole text at once.  This holds for
every text, in particular for every valid event stream, and for every
split at character boundaries. -/
theorem claim_C6 (pieces : List Input) :
    feedPieces [] pieces = events pieces.flatten := by
  have h := feedPieces_events pieces [] events_nil
  simpa using h

/-- Claim C8: an input beginning with a blank terminator line parses as a
valid `RawEvent` with zero lines, and `events` surfaces that empty event
to the consumer rather than filtering it. -/
theorem claim_C8 (i j : Input) (t : Input) (h : end_of_line i = .ok j t) :
    event i = .ok j [] ∧ events i = ((events j).1, [] :: (events j).2) := by
  have hev : event i = .ok j [] := by
    rw [event_eq]
    simp only [eventStep, h]
  refine ⟨hev, ?_⟩
  rw [events_eq]
  simp only [eventsStep, hev]

/-- Claim C8, witness: the input consisting of a single LF is one empty
event with empty residue. -/
theorem claim_C8_witness :
    event ['\u000A'] = .ok [] [] ∧
    events ['\u000A'] = ((events []).1, [] :: (events []).2) :=
  claim_C8 ['\u000A'] [] ['\u000A'] (by decide)

/-! ### Lemmas on rendered event texts -/

lemma name_char_spec {c : Char} (h : is_name_char c = true) :
    is_cr c = false ∧ is_lf c = false ∧ is_colon c = false ∧
      c ≠ '\u000A' ∧ c ≠ '\u000D' := by
  simp only [is_name_char, Bool.or_eq_true, Bool.and_eq_true, decide_eq_true_eq] at h
  have h13 : c.toNat ≠ 13 := by omega
  have h10 : c.toNat ≠ 10 := by omega
  have h58 : c.toNat ≠ 58 := by omega
  have hcr : c ≠ '\u000D' := fun hc => h13 (by rw [hc]; decide)
  have hlf : c ≠ '\u000A' := fun hc => h10 (by rw [hc]; decide)
  have hcol : c ≠ ':' := fun hc => h58 (by rw [hc]; decide)
  refine ⟨?_, ?_, ?_, hlf, hcr⟩
  · simp only [is_cr, decide_eq_false_iff_not]
    exact hcr
  · simp only [is_lf, decide_eq_false_iff_not]
    exact hlf
  · simp only [is_colon, decide_eq_false_iff_not]
    exact hcol

lemma any_char_spec {c : Char} (h : is_any_char c = true) :
    is_cr c = false ∧ is_lf c = false ∧ c ≠ '\u000A' ∧ c ≠ '\u000D' := by
  simp only [is_any_char, Bool.or_eq_true, Bool.and_eq_true, decide_eq_true_eq] at h
  have h13 : c.toNat ≠ 13 := by omega
  have h10 : c.toNat ≠ 10 := by omega
  have hcr : c ≠ '\u000D' := fun hc => h13 (by rw [hc]; decide)
  have hlf : c ≠ '\u000A' := fun hc => h10 (by rw [hc]; decide)
  refine ⟨?_, ?_, hlf, hcr⟩
  · simp only [is_cr, decide_eq_false_iff_not]
    exact hcr
  · simp only [is_lf, decide_eq_false_iff_not]
    exact hlf

lemma eol_err_of_head {c : Char} {t : Input} (hcr : is_cr c = false)
    (hlf : is_lf c = false) : end_of_line (c :: t) = .err := by
  have hc : c ≠ '\u000D' := by
    intro hc
    rw [hc] at hcr
    simp [is_cr] at hcr
  have hc2 : c ≠ '\u000A' := by
    intro hc
    rw [hc] at hlf
    simp [is_lf] at hlf
  have hc' : ¬ ('\u000D' = c) := fun hh => hc hh.symm
  have hcrlf : crlf (c :: t) = .err := by
    unfold crlf tagP
    rw [if_neg, if_neg]
    · simp [List.isPrefixOf, hc]
    · simp [List.isPrefixOf, hc']
  unfold end_of_line
  simp [hcrlf, take1, hcr, hlf]

lemma takeWhileP_exact {pr : Char → Bool} {a : Input} {c : Char} {t : Input}
    (ha : ∀ x ∈ a, pr x = true) (hc : pr c = false) :
    takeWhileP pr (a ++ c :: t) = .ok (c :: t) a := by
  unfold takeWhileP
  have hd : (a ++ c :: t).dropWhile pr = c :: t := by
    rw [dropWhile_append_all _ ha, List.dropWhile_cons_of_neg (by simp [hc])]
  have htw : (a ++ c :: t).takeWhile pr = a := by
    rw [takeWhile_append_all _ ha, List.takeWhile_cons_of_neg (by simp [hc])]
    simp
  rw [hd, htw, if_neg (by simp)]

lemma takeWhile1P_exact {pr : Char → Bool} {a : Input} {c : Char} {t : Input}
    (ha : ∀ x ∈ a, pr x = true) (hc : pr c = false) (hne : a ≠ []) :
    takeWhile1P pr (a ++ c :: t) = .ok (c :: t) a := by
  unfold takeWhile1P
  have hd : (a ++ c :: t).dropWhile pr = c :: t := by
    rw [dropWhile_append_all _ ha, List.dropWhile_cons_of_neg (by simp [hc])]
  have htw : (a ++ c :: t).takeWhile pr = a := by
    rw [takeWhile_append_all _ ha, List.takeWhile_cons_of_neg (by simp [hc])]
    simp
  rw [hd, htw, if_neg (by simp), if_neg (by simp [isEmpty_false_of_ne hne])]

lemma eolChars_head (e : EolKind) (j : Input) :
    ∃ c t, eolChars e ++ j = c :: t ∧ is_any_char c = false ∧
      is_name_char c = false ∧ is_colon c = false ∧ is_space c = false := by
  cases e with
  | crlf => exact ⟨'\u000D', '\u000A' :: j, rfl, by decide, by decide, by decide, by decide⟩
  | cr => exact ⟨'\u000D', j, rfl, by decide, by decide, by decide, by decide⟩
  | lf => exact ⟨'\u000A', j, rfl, by decide, by decide, by decide, by decide⟩

lemma eol_render : ∀ (e : EolKind) (j : Input), EolOk e j →
    end_of_line (eolChars e ++ j) = .ok j (eolChars e) := by
  intro e j he
  cases e with
  | crlf =>
    show end_of_line ('\u000D' :: '\u000A' :: j) = .ok j ['\u000D', '\u000A']
    unfold end_of_line crlf tagP
    rw [if_pos (show (['\u000D', '\u000A'] : Input).isPrefixOf
      ('\u000D' :: '\u000A' :: j) = true by simp [List.isPrefixOf])]
    rfl
  | lf =>
    show end_of_line ('\u000A' :: j) = .ok j ['\u000A']
    simp [end_of_line, crlf, tagP, take1, is_cr, is_lf, List.isPrefixOf]
  | cr =>
    obtain ⟨c, t, hct, hc⟩ := he
    subst hct
    show end_of_line ('\u000D' :: c :: t) = .ok (c :: t) ['\u000D']
    have h1 : ('\u000A' == c) = false := beq_eq_false_iff_ne.mpr fun hh => hc hh.symm
    have h2 : (c == '\u000A') = false := beq_eq_false_iff_ne.mpr hc
    simp [end_of_line, crlf, tagP, take1, is_cr, List.isPrefixOf, h1, h2]

lemma comment_render {p : Input} (hp : ∀ x ∈ p, is_any_char x = true) {e : EolKind}
    {j : Input} (he : EolOk e j) :
    comment (':' :: (p ++ (eolChars e ++ j))) = .ok j (.comment p) := by
  have h1 : take1 is_colon (':' :: (p ++ (eolChars e ++ j))) =
      .ok (p ++ (eolChars e ++ j)) [':'] := by
    simp [take1, is_colon]
  obtain ⟨c, t, hct, hany, _, _, _⟩ := eolChars_head e j
  have h2 : takeWhileP is_any_char (p ++ (eolChars e ++ j)) = .ok (eolChars e ++ j) p := by
    rw [hct]
    exact takeWhileP_exact hp hany
  have h3 := eol_render e j he
  simp only [comment, pbind, h1, h2, h3]

lemma field_render_none {n : Input} (hn : n ≠ []) (hname : ∀ x ∈ n, is_name_char x = true)
    {e : EolKind} {j : Input} (he : EolOk e j) :
    field (n ++ (eolChars e ++ j)) = .ok j (.field n none) := by
  obtain ⟨c, t, hct, _, hnc, hcol, _⟩ := eolChars_head e j
  have h1 : takeWhile1P is_name_char (n ++ (eolChars e ++ j)) = .ok (eolChars e ++ j) n := by
    rw [hct]
    exact takeWhile1P_exact hname hnc hn
  have h2 : take1 is_colon (eolChars e ++ j) = .err := by
    rw [hct]
    simp [take1, hcol]
  have h3 := eol_render e j he
  simp only [field, pbind, h1, h2, h3]

lemma fieldValueTail_render {nm v : Input} (hv : ∀ x ∈ v, is_any_char x = true)
    {e : EolKind} {j : Input} (he : EolOk e j) :
    fieldValueTail nm (v ++ (eolChars e ++ j)) = .ok j (.field nm (some v)) := by
  obtain ⟨c, t, hct, hany, _, _, _⟩ := eolChars_head e j
  have h2 : takeWhileP is_any_char (v ++ (eolChars e ++ j)) = .ok (eolChars e ++ j) v := by
    rw [hct]
    exact takeWhileP_exact hv hany
  have h3 := eol_render e j he
  simp only [fieldValueTail, pbind, h2, h3]

lemma field_render_some {n v : Input} (hn : n ≠ [])
    (hname : ∀ x ∈ n, is_name_char x = true) (hv : ∀ x ∈ v, is_any_char x = true)
    {e : EolKind} {j : Input} (he : EolOk e j) :
    field (n ++ (':' :: (v ++ (eolChars e ++ j)))) =
      .ok j (.field n (some (dropOneSpace v))) := by
  have h1 : takeWhile1P is_name_char (n ++ (':' :: (v ++ (eolChars e ++ j)))) =
      .ok (':' :: (v ++ (eolChars e ++ j))) n :=
    takeWhile1P_exact hname (by decide) hn
  have h2 : take1 is_colon (':' :: (v ++ (eolChars e ++ j))) =
      .ok (v ++ (eolChars e ++ j)) [':'] := by
    simp [take1, is_colon]
  match v with
  | [] =>
    obtain ⟨c, t, hct, _, _, _, hsp⟩ := eolChars_head e j
    have h4 : take1 is_space ([] ++ (eolChars e ++ j)) = .err := by
      rw [List.nil_append, hct]
      simp [take1, hsp]
    have h5 : fieldValueTail n ([] ++ (eolChars e ++ j)) = .ok j (.field n (some [])) :=
      fieldValueTail_render (by simp) he
    simp only [field, pbind, h1, h2, h4, h5, dropOneSpace]
  | c0 :: v' =>
    have hv' : ∀ x ∈ v', is_any_char x = true := fun x hx => hv x (by simp [hx])
    by_cases hsp0 : c0 = ' '
    · subst hsp0
      have h4 : take1 is_space ((' ' :: v') ++ (eolChars e ++ j)) =
          .ok (v' ++ (eolChars e ++ j)) [' '] := by
        simp [take1, is_space]
      have h5 : fieldValueTail n (v' ++ (eolChars e ++ j)) =
          .ok j (.field n (some v')) := fieldValueTail_render hv' he
      simp only [field, pbind, h1, h2, h4, h5, dropOneSpace, if_pos rfl, if_true]
    · have hspf : is_space c0 = false := by
        simp only [is_space, decide_eq_false_iff_not]
        exact hsp0
      have h4 : take1 is_space ((c0 :: v') ++ (eolChars e ++ j)) = .err := by
        simp [take1, hspf]
      have h5 : fieldValueTail n ((c0 :: v') ++ (eolChars e ++ j)) =
          .ok j (.field n (some (c0 :: v'))) := fieldValueTail_render hv he
      simp only [field, pbind, h1, h2, h4, h5, dropOneSpace, if_neg hsp0]

lemma comment_err_of_name {n : Input} (hn : n ≠ [])
    (hname : ∀ x ∈ n, is_name_char x = true) (X : Input) :
    comment (n ++ X) = .err := by
  match n with
  | [] => exact absurd rfl hn
  | c0 :: n' =>
    have hcol : is_colon c0 = false := (name_char_spec (hname c0 (by simp))).2.2.1
    simp only [comment, pbind, List.cons_append]
    rw [show take1 is_colon (c0 :: (n' ++ X)) = .err from by simp [take1, hcol]]

lemma event_line_render {l : SpecLine} (hwf : wfSpecLineB l = true) {e : EolKind}
    {j : Input} (he : EolOk e j) :
    event_line (renderSpecLine l ++ (eolChars e ++ j)) = .ok j (expectedLine l) := by
  cases l with
  | commentL p =>
    have hp : ∀ x ∈ p, is_any_char x = true := by
      simpa [wfSpecLineB, List.all_eq_true] using hwf
    have hcom := comment_render hp he
    unfold event_line
    rw [show renderSpecLine (SpecLine.commentL p) ++ (eolChars e ++ j) =
      ':' :: (p ++ (eolChars e ++ j)) from by simp [renderSpecLine]]
    rw [hcom]
    rfl
  | fieldNone n =>
    simp only [wfSpecLineB, Bool.and_eq_true, Bool.not_eq_true', List.all_eq_true] at hwf
    have hn : n ≠ [] := by
      intro hc
      rw [hc] at hwf
      simp at hwf
    have hname : ∀ x ∈ n, is_name_char x = true := hwf.2
    unfold event_line
    simp only [renderSpecLine]
    rw [comment_err_of_name hn hname (eolChars e ++ j)]
    exact field_render_none hn hname he
  | fieldSome n v =>
    simp only [wfSpecLineB, Bool.and_eq_true, Bool.not_eq_true', List.all_eq_true] at hwf
    have hn : n ≠ [] := by
      intro hc
      rw [hc] at hwf
      simp at hwf
    have hname : ∀ x ∈ n, is_name_char x = true := hwf.1.2
    have hv : ∀ x ∈ v, is_any_char x = true := hwf.2
    unfold event_line
    rw [show renderSpecLine (SpecLine.fieldSome n v) ++ (eolChars e ++ j) =
      n ++ (':' :: (v ++ (eolChars e ++ j))) from by simp [renderSpecLine]]
    rw [comment_err_of_name hn hname (':' :: (v ++ (eolChars e ++ j)))]
    exact field_render_some hn hname hv he

lemma renderSpecLine_head {l : SpecLine} (hwf : wfSpecLineB l = true) (X : Input) :
    ∃ c t, renderSpecLine l ++ X = c :: t ∧ is_cr c = false ∧ is_lf c = false ∧
      c ≠ '\u000A' := by
  cases l with
  | commentL p =>
    exact ⟨':', p ++ X, by simp [renderSpecLine], by decide, by decide, by decide⟩
  | fieldNone n =>
    simp only [wfSpecLineB, Bool.and_eq_true, Bool.not_eq_true', List.all_eq_true] at hwf
    match n, hwf with
    | c0 :: n', ⟨_, hname⟩ =>
      have hs := name_char_spec (hname c0 (by simp))
      exact ⟨c0, n' ++ X, by simp [renderSpecLine], hs.1, hs.2.1, hs.2.2.2.1⟩
  | fieldSome n v =>
    simp only [wfSpecLineB, Bool.and_eq_true, Bool.not_eq_true', List.all_eq_true] at hwf
    match n, hwf with
    | c0 :: n', ⟨⟨_, hname⟩, _⟩ =>
      have hs := name_char_spec (hname c0 (by simp))
      exact ⟨c0, n' ++ (':' :: v) ++ X, by simp [renderSpecLine], hs.1, hs.2.1, hs.2.2.2.1⟩

lemma eolChars_length_pos (e : EolKind) : 1 ≤ (eolChars e).length := by
  cases e <;> simp [eolChars]

lemma event_render : ∀ (lines : List (SpecLine × EolKind)) (blank : EolKind) (j : Input),
    (∀ le ∈ lines, wfSpecLineB le.1 = true) → chainOkB lines blank = true → EolOk blank j →
    event (renderLines lines ++ (eolChars blank ++ j)) =
      .ok j (lines.map fun le => expectedLine le.1) := by
  intro lines
  induction lines with
  | nil =>
    intro blank j _ _ he
    rw [event_eq]
    simp only [renderLines, List.nil_append, List.map_nil]
    simp only [eventStep, eol_render blank j he]
  | cons le rest IH =>
    obtain ⟨l, e⟩ := le
    intro blank j hwf hchain he
    have hwl : wfSpecLineB l = true := hwf (l, e) (by simp)
    have hwrest : ∀ x ∈ rest, wfSpecLineB x.1 = true := fun x hx => hwf x (by simp [hx])
    have hinput : renderLines ((l, e) :: rest) ++ (eolChars blank ++ j) =
        renderSpecLine l ++ (eolChars e ++ (renderLines rest ++ (eolChars blank ++ j))) := by
      simp [renderLines, List.append_assoc]
    rw [hinput]
    have heOk : EolOk e (renderLines rest ++ (eolChars blank ++ j)) := by
      cases e with
      | crlf => trivial
      | lf => trivial
      | cr =>
        cases rest with
        | nil =>
          have hbl : blank ≠ EolKind.lf := by
            intro hb
            subst hb
            simp [chainOkB] at hchain
          cases blank with
          | lf => exact absurd rfl hbl
          | crlf =>
            exact ⟨'\u000D', '\u000A' :: j, by simp [renderLines, eolChars], by decide⟩
          | cr => exact ⟨'\u000D', j, by simp [renderLines, eolChars], by decide⟩
        | cons le2 rest2 =>
          obtain ⟨l2, e2⟩ := le2
          have hw2 : wfSpecLineB l2 = true := hwrest (l2, e2) (by simp)
          obtain ⟨c, t, hct, _, _, hlf2⟩ := renderSpecLine_head hw2
            (eolChars e2 ++ (renderLines rest2 ++ (eolChars blank ++ j)))
          refine ⟨c, t, ?_, hlf2⟩
          rw [show renderLines ((l2, e2) :: rest2) ++ (eolChars blank ++ j) =
            renderSpecLine l2 ++ (eolChars e2 ++ (renderLines rest2 ++ (eolChars blank ++ j)))
            from by simp [renderLines, List.append_assoc], hct]
    obtain ⟨c, t, hct, hcr, hlf, _⟩ := renderSpecLine_head hwl
      (eolChars e ++ (renderLines rest ++ (eolChars blank ++ j)))
    have heol : end_of_line (renderSpecLine l ++
        (eolChars e ++ (renderLines rest ++ (eolChars blank ++ j)))) = .err := by
      rw [hct]
      exact eol_err_of_head hcr hlf
    have hline := event_line_render hwl heOk
    have hchainrest : chainOkB rest blank = true := by
      cases blank with
      | crlf => simp [chainOkB]
      | cr => simp [chainOkB]
      | lf =>
        cases rest with
        | nil => simp [chainOkB]
        | cons x xs =>
          simp only [chainOkB, List.getLast?_cons_cons] at hchain ⊢
          exact hchain
    have hepos := eolChars_length_pos e
    have hlen : ¬ (renderLines rest ++ (eolChars blank ++ j)).length =
        (renderSpecLine l ++
          (eolChars e ++ (renderLines rest ++ (eolChars blank ++ j)))).length := by
      simp only [List.length_append]
      omega
    rw [event_eq]
    simp only [eventStep, heol, hline, if_neg hlen]
    have hrec := IH blank j hwrest hchainrest he
    simp only [hrec, List.map_cons]

/-! ### Claim theorems: grammar round trips -/

/-- Claim C3, counterexample: the well-formed event text consisting of
the field line `a` terminated by LF and a blank line terminated by lone
CR — permitted terminators per the claim — parses to zero events, not
one: the final lone CR stays incomplete because it could be the start of
a CRLF. -/
theorem claim_C3_counterexample :
    wfSpecLineB (SpecLine.fieldNone ['a']) = true ∧
    renderEvent [(SpecLine.fieldNone ['a'], EolKind.lf)] EolKind.cr =
      ['a', '\u000A', '\u000D'] ∧
    events ['a', '\u000A', '\u000D'] = (['a', '\u000A', '\u000D'], []) := by
  decide

/-- Claim C3, amended: for a well-formed event text whose blank line is
terminated by LF or CRLF and whose last comment/field line, if
terminated by a lone CR, is not followed by an LF blank terminator
(otherwise CRLF priority merges the two terminators), parsing recognizes
exactly one `RawEvent` whose lines match the input's comment/field lines
in order, and feeding the text in any pieces through residue threading
produces that same single event. -/
theorem claim_C3_amended (lines : List (SpecLine × EolKind)) (blank : EolKind)
    (pieces : List Input)
    (hwf : ∀ le ∈ lines, wfSpecLineB le.1 = true)
    (hchain : chainOkB lines blank = true)
    (hblank : blank ≠ EolKind.cr)
    (hsplit : pieces.flatten = renderEvent lines blank) :
    events (renderEvent lines blank) =
      ([], [lines.map fun le => expectedLine le.1]) ∧
    feedPieces [] pieces = ([], [lines.map fun le => expectedLine le.1]) := by
  have heOk : EolOk blank [] := by
    cases blank with
    | cr => exact absurd rfl hblank
    | crlf => trivial
    | lf => trivial
  have hev : event (renderEvent lines blank) =
      .ok [] (lines.map fun le => expectedLine le.1) := by
    have h := event_render lines blank [] hwf hchain heOk
    simpa [renderEvent] using h
  have hevents : events (renderEvent lines blank) =
      ([], [lines.map fun le => expectedLine le.1]) := by
    rw [events_eq]
    simp only [eventsStep, hev, events_nil]
  refine ⟨hevents, ?_⟩
  have hfeed := feedPieces_events pieces [] events_nil
  rw [hfeed]
  simpa [hsplit] using hevents

/-- Claim C3, witness: the comment-line event `":hi\n\n"` parses to one
event, also when fed in the pieces `":"`, `"hi\n"`, `"\n"`. -/
theorem claim_C3_witness :
    events (renderEvent [(SpecLine.commentL ['h', 'i'], EolKind.lf)] EolKind.lf) =
      ([], [[RawEventLine.comment ['h', 'i']]]) ∧
    feedPieces [] [[':'], ['h', 'i', '\u000A'], ['\u000A']] =
      ([], [[RawEventLine.comment ['h', 'i']]]) := by
  exact claim_C3_amended [(SpecLine.commentL ['h', 'i'], EolKind.lf)] EolKind.lf
    [[':'], ['h', 'i', '\u000A'], ['\u000A']]
    (by decide) (by decide) (by decide) (by decide)

/-- Claim C7: a field line with no colon yields value `none`; with a
colon, the value is everything after the colon with at most one leading
space stripped — so `:` immediately before end-of-line yields
`some ""`, and `"foo: bar"`, `"foo:bar"`, `"foo:  bar"` yield `"bar"`,
`"bar"`, `" bar"` (see the witness). -/
theorem claim_C7 (n v rest : Input) (hn : n ≠ [])
    (hname : ∀ x ∈ n, is_name_char x = true) (hv : ∀ x ∈ v, is_any_char x = true) :
    field (n ++ ('\u000A' :: rest)) = .ok rest (.field n none) ∧
    field (n ++ (':' :: (v ++ ('\u000A' :: rest)))) =
      .ok rest (.field n (some (dropOneSpace v))) := by
  constructor
  · have h := field_render_none hn hname (e := EolKind.lf) (j := rest) trivial
    simpa [eolChars] using h
  · have h := field_render_some hn hname hv (e := EolKind.lf) (j := rest) trivial
    simpa [eolChars] using h

/-- Claim C7, witness: the boundary examples — `"foo\n"`, `"foo:\n"`,
`"foo: bar\n"`, `"foo:bar\n"`, `"foo:  bar\n"`. -/
theorem claim_C7_witness :
    field (['f', 'o', 'o'] ++ ('\u000A' :: [])) =
      .ok [] (.field ['f', 'o', 'o'] none) ∧
    field (['f', 'o', 'o'] ++ (':' :: ([] ++ ('\u000A' :: [])))) =
      .ok [] (.field ['f', 'o', 'o'] (some [])) ∧
    field (['f', 'o', 'o'] ++ (':' :: ([' ', 'b', 'a', 'r'] ++ ('\u000A' :: [])))) =
      .ok [] (.field ['f', 'o', 'o'] (some ['b', 'a', 'r'])) ∧
    field (['f', 'o', 'o'] ++ (':' :: (['b', 'a', 'r'] ++ ('\u000A' :: [])))) =
      .ok [] (.field ['f', 'o', 'o'] (some ['b', 'a', 'r'])) ∧
    field (['f', 'o', 'o'] ++ (':' :: ([' ', ' ', 'b', 'a', 'r'] ++ ('\u000A' :: [])))) =
      .ok [] (.field ['f', 'o', 'o'] (some [' ', 'b', 'a', 'r'])) := by
  refine ⟨(claim_C7 ['f', 'o', 'o'] [] [] (by decide) (by decide) (by decide)).1,
    (claim_C7 ['f', 'o', 'o'] [] [] (by decide) (by decide) (by decide)).2,
    (claim_C7 ['f', 'o', 'o'] [' ', 'b', 'a', 'r'] [] (by decide) (by decide)
      (by decide)).2,
    (claim_C7 ['f', 'o', 'o'] ['b', 'a', 'r'] [] (by decide) (by decide) (by decide)).2,
    (claim_C7 ['f', 'o', 'o'] [' ', ' ', 'b', 'a', 'r'] [] (by decide) (by decide)
      (by decide)).2⟩

/-- Claim C10: a lone CR at the end of the available input is reported
as incomplete by `end_of_line`, `comment` and `field` (both with and
without a value), never accepted as a terminator; and a CR directly
followed by LF is always consumed as the single CRLF terminator, so a
CRLF split across chunks is re-examined whole after the remainder is
prepended and never parsed as two terminators. -/
theorem claim_C10 :
    end_of_line ['\u000D'] = .incomplete ∧
    (∀ p : Input, (∀ x ∈ p, is_any_char x = true) →
      comment (':' :: (p ++ ['\u000D'])) = .incomplete) ∧
    (∀ n : Input, n ≠ [] → (∀ x ∈ n, is_name_char x = true) →
      field (n ++ ['\u000D']) = .incomplete) ∧
    (∀ n v : Input, n ≠ [] → (∀ x ∈ n, is_name_char x = true) →
      (∀ x ∈ v, is_any_char x = true) →
      field (n ++ (':' :: (v ++ ['\u000D']))) = .incomplete) ∧
    (∀ rest : Input, end_of_line ('\u000D' :: '\u000A' :: rest) =
      .ok rest ['\u000D', '\u000A']) := by
  have hcr_inc : end_of_line ['\u000D'] = .incomplete := by decide
  have hfvt : ∀ (nm v : Input), (∀ x ∈ v, is_any_char x = true) →
      fieldValueTail nm (v ++ ['\u000D']) = .incomplete := by
    intro nm v hv
    have h2 : takeWhileP is_any_char (v ++ ['\u000D']) = .ok ['\u000D'] v :=
      takeWhileP_exact hv (by decide)
    simp only [fieldValueTail, pbind, h2, hcr_inc]
  refine ⟨hcr_inc, ?_, ?_, ?_, ?_⟩
  · intro p hp
    have h1 : take1 is_colon (':' :: (p ++ ['\u000D'])) = .ok (p ++ ['\u000D']) [':'] := by
      simp [take1, is_colon]
    have h2 : takeWhileP is_any_char (p ++ ['\u000D']) = .ok ['\u000D'] p :=
      takeWhileP_exact hp (by decide)
    simp only [comment, pbind, h1, h2, hcr_inc]
  · intro n hn hname
    have h1 : takeWhile1P is_name_char (n ++ ['\u000D']) = .ok ['\u000D'] n :=
      takeWhile1P_exact hname (by decide) hn
    have h2 : take1 is_colon ['\u000D'] = .err := by decide
    simp only [field, pbind, h1, h2, hcr_inc]
  · intro n v hn hname hv
    have h1 : takeWhile1P is_name_char (n ++ (':' :: (v ++ ['\u000D']))) =
        .ok (':' :: (v ++ ['\u000D'])) n :=
      takeWhile1P_exact hname (by decide) hn
    have h2 : take1 is_colon (':' :: (v ++ ['\u000D'])) = .ok (v ++ ['\u000D']) [':'] := by
      simp [take1, is_colon]
    match v with
    | [] =>
      have h4 : take1 is_space ([] ++ ['\u000D']) = .err := by decide
      have h5 := hfvt n [] (by simp)
      simp only [field, pbind, h1, h2, h4, h5]
    | c0 :: v' =>
      have hv' : ∀ x ∈ v', is_any_char x = true := fun x hx => hv x (by simp [hx])
      by_cases hsp0 : c0 = ' '
      · subst hsp0
        have h4 : take1 is_space ((' ' :: v') ++ ['\u000D']) =
            .ok (v' ++ ['\u000D']) [' '] := by
          simp [take1, is_space]
        have h5 := hfvt n v' hv'
        simp only [field, pbind, h1, h2, h4, h5]
      · have hspf : is_space c0 = false := by
          simp only [is_space, decide_eq_false_iff_not]
          exact hsp0
        have h4 : take1 is_space ((c0 :: v') ++ ['\u000D']) = .err := by
          simp [take1, hspf]
        have h5 := hfvt n (c0 :: v') hv
        simp only [field, pbind, h1, h2, h4, h5]
  · intro rest
    have h := eol_render EolKind.crlf rest trivial
    simpa [eolChars] using h

/-- Claim C10, witness: concrete instances — `"\r"` is incomplete at
`end_of_line`, `":a\r"` at `comment`, `"f\r"` and `"f:v\r"` at `field`,
and `"\r\nx"` consumes one CRLF terminator. -/
theorem claim_C10_witness :
    end_of_line ['\u000D'] = .incomplete ∧
    comment (':' :: (['a'] ++ ['\u000D'])) = .incomplete ∧
    field (['f'] ++ ['\u000D']) = .incomplete ∧
    field (['f'] ++ (':' :: (['v'] ++ ['\u000D']))) = .incomplete ∧
    end_of_line ('\u000D' :: '\u000A' :: ['x']) = .ok ['x'] ['\u000D', '\u000A'] :=
  ⟨claim_C10.1,
    claim_C10.2.1 ['a'] (by decide),
    claim_C10.2.2.1 ['f'] (by decide) (by decide),
    claim_C10.2.2.2.1 ['f'] ['v'] (by decide) (by decide) (by decide),
    claim_C10.2.2.2.2 ['x']⟩

end Esp
